import Mathlib

/-!
Shallow embedding of the udp_ev runtime interface declared in `src/udp_ev.h`.
The repository ships the header only (declarations plus their documentation),
so every function body below is modelled from the header's documentation and
the design specification, as the doc comment on each definition records.
Machine 32-bit sequence arithmetic is modelled on natural numbers with an
explicit reduction modulo 2 ^ 32.
-/

namespace UdpEv

/-- Modelled from the spec: one slot of a Timer Instance's Session Store,
holding the sequence number, the insertion timestamp, the payload bytes and
the liveness flag (a cleared flag is a tombstone). -/
structure Slot where
  seq : Nat
  birth : Nat
  payload : List Nat
  live : Bool
deriving Repr, DecidableEq

/-- Modelled from the spec: the timer context `struct ue_timer` of
`src/udp_ev.h` (fixed timeout and session size), extended with the Session
Store state the spec describes — the slot array, the oldest-unexpired cursor
and the maintained live counter; the implementation file is absent from the
repository. -/
structure ue_timer where
  timeout : Nat
  session_size : Nat
  store : List Slot
  head : Nat
  liveCount : Nat
deriving Repr, DecidableEq

/-- Modelled from the spec: the Global Sequence Index, an association list
mapping a sequence number to the pair of owning timer id and slot index. -/
abbrev Index := List (Nat × Nat × Nat)

/-- Modelled from the spec: the process-wide state — every Timer Instance,
the Global Sequence Index and the Identifier Allocator's last issued value. -/
structure UeState where
  timers : List ue_timer
  index : Index
  lastSeq : Nat
deriving Repr, DecidableEq

/-- Fresh process state: no timers, empty index, allocator at zero. -/
def initState : UeState := ⟨[], [], 0⟩

/-- Modelled from the spec: the Identifier Allocator — a monotonically
increasing 32-bit sequence number, non-zero, skipping 0 on wraparound. -/
def allocSeq (last : Nat) : Nat :=
  let n := (last + 1) % 2 ^ 32
  if n = 0 then 1 else n

/-- Zero filled payload of the declared session size. -/
def zeroPayload (n : Nat) : List Nat := List.replicate n 0

/-- Modelled from the spec: `add` copies exactly `session_size` bytes from
the caller's buffer into the slot; bytes the caller did not supply are
modelled as zero. -/
def copyPayload (sz : Nat) (p : List Nat) : List Nat :=
  p.take sz ++ zeroPayload (sz - p.length)

/-- Lookup of a sequence number in the Global Sequence Index. -/
def indexLookup : Index → Nat → Option (Nat × Nat)
  | [], _ => none
  | e :: rest, s => if e.1 = s then some (e.2.1, e.2.2) else indexLookup rest s

/-- Removal of every entry of a sequence number from the index. -/
def indexRemove (idx : Index) (s : Nat) : Index :=
  idx.filter fun e => decide (e.1 ≠ s)

/-- Modelled from the spec: `ue_timer_create` — a new Timer Instance with the
given timeout and session size and an empty Session Store; returns the new
state and the fresh instance's id. -/
def ue_timer_create (st : UeState) (timeout session_size : Nat) : UeState × Nat :=
  ({ st with timers := st.timers ++ [⟨timeout, session_size, [], 0, 0⟩] },
   st.timers.length)

/-- The payload bytes stored by `add`: the caller's bytes when supplied,
zero filled otherwise. -/
def payloadBytes (sz : Nat) : Option (List Nat) → List Nat
  | some p => copyPayload sz p
  | none => zeroPayload sz

/-- The state after a successful `add` on timer `tid` (whose record is
`ut`): a live slot appended at the tail, the sequence registered in the
Global Sequence Index, the allocator advanced. -/
def addState (st : UeState) (tid : Nat) (ut : ue_timer) (pl : Option (List Nat))
    (now : Nat) : UeState :=
  { timers := st.timers.set tid
      { ut with store := ut.store ++ [⟨allocSeq st.lastSeq, now, payloadBytes ut.session_size pl, true⟩],
                liveCount := ut.liveCount + 1 },
    index := (allocSeq st.lastSeq, tid, ut.store.length) :: st.index,
    lastSeq := allocSeq st.lastSeq }

/-- Modelled from the spec: `ue_timer_add` — allocates the next non-zero
sequence, appends a live slot stamped `now` at the tail of the store, copies
the payload (zero fills when absent), registers the sequence in the Global
Sequence Index, and returns the new state, the assigned sequence and the
slot's payload address, given as the pair of timer id and slot index;
`none` when the timer id is invalid. -/
def ue_timer_add (st : UeState) (tid : Nat) (pl : Option (List Nat)) (now : Nat) :
    Option (UeState × Nat × Nat × Nat) :=
  match st.timers[tid]? with
  | none => none
  | some ut =>
    some (addState st tid ut pl now, allocSeq st.lastSeq, tid, ut.store.length)

/-- Modelled from the spec: `ue_timer_get` — looks the sequence up in the
Global Sequence Index; fails (`none`, the NotFound outcome) when the sequence
is absent or its slot is not live; otherwise returns the payload address. -/
def ue_timer_get (st : UeState) (s : Nat) : Option (Nat × Nat) :=
  match indexLookup st.index s with
  | none => none
  | some (tid, i) =>
    match st.timers[tid]? with
    | none => none
    | some ut =>
      match ut.store[i]? with
      | none => none
      | some sl => if sl.live then some (tid, i) else none

/-- The payload bytes stored at a payload address. -/
def derefPayload (st : UeState) (ad : Nat × Nat) : Option (List Nat) :=
  match st.timers[ad.1]? with
  | none => none
  | some ut => (ut.store[ad.2]?).map Slot.payload

/-- Tombstoning of a slot: the liveness flag cleared, all else in place. -/
def killSlot (sl : Slot) : Slot := { sl with live := false }

/-- The state after a deletion that hit the live slot `sl` at timer `tid`,
slot index `i`: the slot tombstoned, the live counter decremented, the
index entry removed. -/
def delState (st : UeState) (s tid i : Nat) (ut : ue_timer) (sl : Slot) : UeState :=
  { st with timers := st.timers.set tid
              { ut with store := ut.store.set i (killSlot sl),
                        liveCount := ut.liveCount - 1 },
            index := indexRemove st.index s }

/-- Modelled from the spec: `ue_timer_del` — when the sequence is present and
its slot live, clears the liveness flag (tombstone, payload left in place)
and removes the index entry; otherwise a no-op. Returns the owning timer id
when a live entry was hit, `none` on the no-op path (never an error). -/
def ue_timer_del (st : UeState) (s : Nat) : UeState × Option Nat :=
  match indexLookup st.index s with
  | none => (st, none)
  | some (tid, i) =>
    match st.timers[tid]? with
    | none => (st, none)
    | some ut =>
      match ut.store[i]? with
      | none => (st, none)
      | some sl =>
        if sl.live then (delState st s tid i ut sl, some tid)
        else (st, none)

/-- Modelled from the spec: `ue_timer_num` — the maintained live counter of
the instance (not the store capacity). -/
def ue_timer_num (st : UeState) (tid : Nat) : Nat :=
  match st.timers[tid]? with
  | none => 0
  | some ut => ut.liveCount

/-- Modelled from the spec: `ue_timer_sequence` — reverse lookup from a
payload address to the sequence recorded in the slot's header. -/
def ue_timer_sequence (st : UeState) (ad : Nat × Nat) : Nat :=
  match st.timers[ad.1]? with
  | none => 0
  | some ut =>
    match ut.store[ad.2]? with
    | none => 0
    | some sl => sl.seq

/-- Modelled from the spec: `ue_timer_which` — reverse lookup from a payload
address to the Timer Instance whose store owns it. -/
def ue_timer_which (st : UeState) (ad : Nat × Nat) : Option Nat :=
  match st.timers[ad.1]? with
  | none => none
  | some ut => if ad.2 < ut.store.length then some ad.1 else none

/-- Result of one expiry sweep over the store suffix at the oldest cursor:
the rewritten suffix, the cursor advance, the updated index and the fired
sequences in firing order. -/
structure SweepOut where
  slots : List Slot
  stepped : Nat
  idx : Index
  fired : List Nat
deriving Repr, DecidableEq

/-- Modelled from the spec: the expiry sweep — scans slots strictly in
insertion order from the oldest cursor; for each due slot (insertion
timestamp plus timeout at most `now`) a live slot is fired (callback, flag
cleared, index entry removed) and a tombstone is skipped; the scan stops at
the first slot not yet due. -/
def sweepList (T now : Nat) : Index → List Slot → SweepOut
  | idx, [] => ⟨[], 0, idx, []⟩
  | idx, sl :: rest =>
    if sl.birth + T ≤ now then
      if sl.live then
        let r := sweepList T now (indexRemove idx sl.seq) rest
        ⟨killSlot sl :: r.slots, r.stepped + 1, r.idx, sl.seq :: r.fired⟩
      else
        let r := sweepList T now idx rest
        ⟨sl :: r.slots, r.stepped + 1, r.idx, r.fired⟩
    else ⟨sl :: rest, 0, idx, []⟩

/-- The sweep of timer `tid` (record `ut`) at time `now`, over the store
suffix at the oldest cursor. -/
def tickSweep (st : UeState) (ut : ue_timer) (now : Nat) : SweepOut :=
  sweepList ut.timeout now st.index (ut.store.drop ut.head)

/-- The state after one expiry sweep of timer `tid` at time `now`. -/
def tickState (st : UeState) (tid : Nat) (ut : ue_timer) (now : Nat) : UeState :=
  { st with timers := st.timers.set tid
              { ut with store := ut.store.take ut.head ++ (tickSweep st ut now).slots,
                        head := ut.head + (tickSweep st ut now).stepped,
                        liveCount := ut.liveCount - (tickSweep st ut now).fired.length },
            index := (tickSweep st ut now).idx }

/-- Modelled from the spec: one expiry sweep of the given Timer Instance at
time `now`, as driven by the Event Loop when the instance's deadline passes;
returns the new state and the fired sequences in firing order. -/
def ue_timer_tick (st : UeState) (tid now : Nat) : UeState × List Nat :=
  match st.timers[tid]? with
  | none => (st, [])
  | some ut => (tickState st tid ut now, (tickSweep st ut now).fired)

/-- An externally driven operation on the timer engine: instance creation,
session addition, deletion by sequence, or an expiry sweep at a time. -/
inductive UeOp where
  | create (timeout session_size : Nat)
  | add (tid : Nat) (pl : Option (List Nat)) (now : Nat)
  | del (s : Nat)
  | tick (tid now : Nat)
deriving Repr, DecidableEq

/-- Observable event of one operation: a session added (with its assigned
sequence), a deletion that hit a live entry, or a timeout callback firing. -/
inductive UeEvent where
  | added (tid s now : Nat)
  | delLive (tid s : Nat)
  | expired (tid s now : Nat)
deriving Repr, DecidableEq

/-- One operation applied to the state, with the events it emits. -/
def stepOp (st : UeState) : UeOp → UeState × List UeEvent
  | .create t sz => ((ue_timer_create st t sz).1, [])
  | .add tid pl now =>
    match ue_timer_add st tid pl now with
    | none => (st, [])
    | some (st', s, _, _) => (st', [.added tid s now])
  | .del s =>
    match ue_timer_del st s with
    | (st', none) => (st', [])
    | (st', some tid) => (st', [.delLive tid s])
  | .tick tid now =>
    let r := ue_timer_tick st tid now
    (r.1, r.2.map fun q => .expired tid q now)

/-- A whole trace of operations, with the events in emission order. -/
def execOps (st : UeState) : List UeOp → UeState × List UeEvent
  | [] => (st, [])
  | op :: rest =>
    let r := stepOp st op
    let r' := execOps r.1 rest
    (r'.1, r.2 ++ r'.2)

/-- Number of `add` operations in a trace. -/
def numAddOps (ops : List UeOp) : Nat :=
  ops.countP fun op => match op with | .add _ _ _ => true | _ => false

/-- The sequence numbers returned by the `add` calls of a trace, in order. -/
def addedSeqs (evs : List UeEvent) : List Nat :=
  evs.filterMap fun e => match e with | .added _ s _ => some s | _ => none

/-- The times at which the timeout callback fired for a given sequence. -/
def expiredTimesFor (s : Nat) (evs : List UeEvent) : List Nat :=
  evs.filterMap fun e => match e with
    | .expired _ q u => if q = s then some u else none
    | _ => none

/-- Number of sessions added on a given Timer Instance. -/
def cntAdded (tid : Nat) (evs : List UeEvent) : Nat :=
  evs.countP fun e => match e with | .added t _ _ => t == tid | _ => false

/-- Number of deletions that hit a live entry of a given Timer Instance. -/
def cntDelLive (tid : Nat) (evs : List UeEvent) : Nat :=
  evs.countP fun e => match e with | .delLive t _ => t == tid | _ => false

/-- Number of natural expirations on a given Timer Instance. -/
def cntExpired (tid : Nat) (evs : List UeEvent) : Nat :=
  evs.countP fun e => match e with | .expired t _ _ => t == tid | _ => false

/-- The timestamp an operation carries, when it carries one. -/
def opTime : UeOp → Option Nat
  | .add _ _ now => some now
  | .tick _ now => some now
  | _ => none

/-- Times along a trace are non-decreasing, starting no earlier than `c`. -/
def opsFrom (c : Nat) : List UeOp → Prop
  | [] => True
  | op :: rest =>
    match opTime op with
    | none => opsFrom c rest
    | some u => c ≤ u ∧ opsFrom u rest

/-- The slot stored at a payload address, when it exists. -/
def SlotAt (st : UeState) (t i : Nat) : Option Slot :=
  (st.timers[t]?).bind fun ut => ut.store[i]?

/-! ### Basic lemmas about the helpers -/

theorem copyPayload_of_length (p : List Nat) (sz : Nat) (h : p.length = sz) :
    copyPayload sz p = p := by
  subst h
  simp [copyPayload, zeroPayload]

theorem indexLookup_remove_self (idx : Index) (s : Nat) :
    indexLookup (indexRemove idx s) s = none := by
  induction idx with
  | nil => rfl
  | cons e rest ih =>
    by_cases h : e.1 = s
    · simpa [indexRemove, List.filter_cons, h] using ih
    · simpa [indexRemove, List.filter_cons, h, indexLookup] using ih

/-- Elimination form for a successful lookup. -/
theorem ue_timer_get_some_elim (st : UeState) (s : Nat) (ad : Nat × Nat)
    (h : ue_timer_get st s = some ad) :
    ∃ ut sl, indexLookup st.index s = some ad ∧ st.timers[ad.1]? = some ut ∧
      ut.store[ad.2]? = some sl ∧ sl.live = true := by
  unfold ue_timer_get at h
  rcases h1 : indexLookup st.index s with _ | ⟨tid, i⟩
  · simp [h1] at h
  · simp only [h1] at h
    rcases h2 : st.timers[tid]? with _ | ut
    · simp [h2] at h
    · simp only [h2] at h
      rcases h3 : ut.store[i]? with _ | sl
      · simp [h3] at h
      · simp only [h3] at h
        by_cases h4 : sl.live = true
        · simp only [h4, if_true, Option.some.injEq] at h
          subst h
          exact ⟨ut, sl, rfl, h2, h3, h4⟩
        · simp [h4] at h

/-- Deleting a sequence always leaves `get` on it failing, whatever the
starting state. -/
theorem ue_timer_get_del_self (st : UeState) (s : Nat) :
    ue_timer_get (ue_timer_del st s).1 s = none := by
  unfold ue_timer_del
  rcases h1 : indexLookup st.index s with _ | ⟨tid, i⟩
  · simp [ue_timer_get, h1]
  · rcases h2 : st.timers[tid]? with _ | ut
    · simp [ue_timer_get, h1, h2]
    · rcases h3 : ut.store[i]? with _ | sl
      · simp [ue_timer_get, h1, h2, h3]
      · by_cases h4 : sl.live = true
        · simp only [h2, h3, h4, if_true]
          simp [ue_timer_get, delState, indexLookup_remove_self]
        · simp only [Bool.not_eq_true] at h4
          simp [ue_timer_get, h1, h2, h3, h4]

/-- Deleting a second time is a no-op reporting no hit. -/
theorem ue_timer_del_del_self (st : UeState) (s : Nat) :
    ue_timer_del (ue_timer_del st s).1 s = ((ue_timer_del st s).1, none) := by
  unfold ue_timer_del
  rcases h1 : indexLookup st.index s with _ | ⟨tid, i⟩
  · simp [ue_timer_del, h1]
  · rcases h2 : st.timers[tid]? with _ | ut
    · simp [ue_timer_del, h1, h2]
    · rcases h3 : ut.store[i]? with _ | sl
      · simp [ue_timer_del, h1, h2, h3]
      · by_cases h4 : sl.live = true
        · simp only [h2, h3, h4, if_true]
          simp [delState, indexLookup_remove_self]
        · simp only [Bool.not_eq_true] at h4
          simp [ue_timer_del, h1, h2, h3, h4]

/-! ### Index membership lemmas -/

theorem indexRemove_mem (idx : Index) (s : Nat) (e : Nat × Nat × Nat) :
    e ∈ indexRemove idx s ↔ e ∈ idx ∧ e.1 ≠ s := by
  simp [indexRemove, List.mem_filter]

theorem indexLookup_eq_none_iff (idx : Index) (s : Nat) :
    indexLookup idx s = none ↔ ∀ e ∈ idx, e.1 ≠ s := by
  induction idx with
  | nil => simp [indexLookup]
  | cons e rest ih =>
    by_cases h : e.1 = s
    · simp [indexLookup, h]
    · simp [indexLookup, h, ih]

theorem indexLookup_mem (idx : Index) (s t i : Nat)
    (h : indexLookup idx s = some (t, i)) : (s, t, i) ∈ idx := by
  induction idx with
  | nil => simp [indexLookup] at h
  | cons e rest ih =>
    rcases e with ⟨e1, e2, e3⟩
    by_cases he : e1 = s
    · subst he
      simp only [indexLookup, eq_self_iff_true, if_true, Option.some.injEq,
        Prod.mk.injEq] at h
      obtain ⟨rfl, rfl⟩ := h
      exact List.mem_cons_self _ _
    · simp only [indexLookup, he, if_false] at h
      exact List.mem_cons_of_mem _ (ih h)

/-! ### Expiry sweep characterization -/

theorem killSlot_of_dead (sl : Slot) (h : sl.live = false) : killSlot sl = sl := by
  cases sl
  simp only at h
  simp [killSlot, h]

theorem sweepList_slots_length (T now : Nat) (l : List Slot) :
    ∀ idx, (sweepList T now idx l).slots.length = l.length := by
  induction l with
  | nil => intro idx; rfl
  | cons sl rest ih =>
    intro idx
    by_cases hd : sl.birth + T ≤ now
    · by_cases hl : sl.live = true
      · simp [sweepList, hd, hl, ih]
      · simp only [Bool.not_eq_true] at hl
        simp [sweepList, hd, hl, ih]
    · simp [sweepList, hd]

theorem sweepList_stepped_le (T now : Nat) (l : List Slot) :
    ∀ idx, (sweepList T now idx l).stepped ≤ l.length := by
  induction l with
  | nil => intro idx; simp [sweepList]
  | cons sl rest ih =>
    intro idx
    by_cases hd : sl.birth + T ≤ now
    · by_cases hl : sl.live = true
      · simpa [sweepList, hd, hl] using ih (indexRemove idx sl.seq)
      · simp only [Bool.not_eq_true] at hl
        simpa [sweepList, hd, hl] using ih idx
    · simp [sweepList, hd]

theorem sweepList_slots_get (T now : Nat) (l : List Slot) :
    ∀ idx i, (sweepList T now idx l).slots[i]? =
      if i < (sweepList T now idx l).stepped then (l[i]?).map killSlot
      else l[i]? := by
  induction l with
  | nil => intro idx i; simp [sweepList]
  | cons sl rest ih =>
    intro idx i
    by_cases hd : sl.birth + T ≤ now
    · by_cases hl : sl.live = true
      · cases i with
        | zero => simp [sweepList, hd, hl]
        | succ i =>
          simp only [sweepList, hd, hl, if_true]
          simpa [Nat.succ_lt_succ_iff] using ih (indexRemove idx sl.seq) i
      · simp only [Bool.not_eq_true] at hl
        cases i with
        | zero => simp [sweepList, hd, hl, killSlot_of_dead sl hl]
        | succ i =>
          simp only [sweepList, hd, hl, if_false, Bool.false_eq_true]
          simpa [Nat.succ_lt_succ_iff] using ih idx i
    · simp [sweepList, hd]

theorem sweepList_due (T now : Nat) (l : List Slot) :
    ∀ idx i, i < (sweepList T now idx l).stepped →
      ∃ sl, l[i]? = some sl ∧ sl.birth + T ≤ now := by
  induction l with
  | nil => intro idx i h; simp [sweepList] at h
  | cons sl rest ih =>
    intro idx i h
    by_cases hd : sl.birth + T ≤ now
    · by_cases hl : sl.live = true
      · simp [sweepList, hd, hl] at h
        cases i with
        | zero => exact ⟨sl, by simp, hd⟩
        | succ i =>
          rcases ih (indexRemove idx sl.seq) i (by omega) with ⟨sl', h1, h2⟩
          exact ⟨sl', by simpa using h1, h2⟩
      · simp only [Bool.not_eq_true] at hl
        simp [sweepList, hd, hl] at h
        cases i with
        | zero => exact ⟨sl, by simp, hd⟩
        | succ i =>
          rcases ih idx i (by omega) with ⟨sl', h1, h2⟩
          exact ⟨sl', by simpa using h1, h2⟩
    · simp [sweepList, hd] at h

theorem sweepList_stop (T now : Nat) (l : List Slot) :
    ∀ idx, (sweepList T now idx l).stepped = l.length ∨
      ∃ sl, l[(sweepList T now idx l).stepped]? = some sl ∧
        ¬ (sl.birth + T ≤ now) := by
  induction l with
  | nil => intro idx; left; rfl
  | cons sl rest ih =>
    intro idx
    by_cases hd : sl.birth + T ≤ now
    · by_cases hl : sl.live = true
      · rcases ih (indexRemove idx sl.seq) with h | ⟨sl', h1, h2⟩
        · left
          simp [sweepList, hd, hl, h]
        · right
          exact ⟨sl', by simpa [sweepList, hd, hl] using h1, h2⟩
      · simp only [Bool.not_eq_true] at hl
        rcases ih idx with h | ⟨sl', h1, h2⟩
        · left
          simp [sweepList, hd, hl, h]
        · right
          exact ⟨sl', by simpa [sweepList, hd, hl] using h1, h2⟩
    · right
      exact ⟨sl, by simp [sweepList, hd], hd⟩

theorem sweepList_fired (T now : Nat) (l : List Slot) :
    ∀ idx, (sweepList T now idx l).fired =
      ((l.take (sweepList T now idx l).stepped).filter (fun x => x.live)).map
        Slot.seq := by
  induction l with
  | nil => intro idx; simp [sweepList]
  | cons sl rest ih =>
    intro idx
    by_cases hd : sl.birth + T ≤ now
    · by_cases hl : sl.live = true
      · simp [sweepList, hd, hl, List.filter_cons, ih (indexRemove idx sl.seq)]
      · simp only [Bool.not_eq_true] at hl
        simp [sweepList, hd, hl, List.filter_cons, ih idx]
    · simp [sweepList, hd]

theorem sweepList_idx_mem (T now : Nat) (l : List Slot) :
    ∀ idx (e : Nat × Nat × Nat), e ∈ (sweepList T now idx l).idx ↔
      e ∈ idx ∧ e.1 ∉ (sweepList T now idx l).fired := by
  induction l with
  | nil => intro idx e; simp [sweepList]
  | cons sl rest ih =>
    intro idx e
    by_cases hd : sl.birth + T ≤ now
    · by_cases hl : sl.live = true
      · simp only [sweepList, hd, hl, if_true]
        rw [ih (indexRemove idx sl.seq) e]
        rw [indexRemove_mem]
        simp only [List.mem_cons]
        tauto
      · simp only [Bool.not_eq_true] at hl
        simp only [sweepList, hd, hl, Bool.false_eq_true, if_false]
        exact ih idx e
    · simp [sweepList, hd]

/-! ### Operation characterizations and slot stability -/

theorem SlotAt_eq_some (st : UeState) (t i : Nat) (sl : Slot) :
    SlotAt st t i = some sl ↔
      ∃ ut, st.timers[t]? = some ut ∧ ut.store[i]? = some sl := by
  simp [SlotAt, Option.bind_eq_some]

theorem ue_timer_add_eq (st : UeState) (tid : Nat) (pl : Option (List Nat))
    (now : Nat) (ut : ue_timer) (hut : st.timers[tid]? = some ut) :
    ue_timer_add st tid pl now =
      some (addState st tid ut pl now, allocSeq st.lastSeq, tid, ut.store.length) := by
  simp only [ue_timer_add, hut]

theorem ue_timer_add_none (st : UeState) (tid : Nat) (pl : Option (List Nat))
    (now : Nat) (hut : st.timers[tid]? = none) :
    ue_timer_add st tid pl now = none := by
  simp only [ue_timer_add, hut]

theorem ue_timer_del_cases (st : UeState) (s : Nat) :
    ue_timer_del st s = (st, none) ∨
    ∃ tid i ut sl, indexLookup st.index s = some (tid, i) ∧
      st.timers[tid]? = some ut ∧ ut.store[i]? = some sl ∧ sl.live = true ∧
      ue_timer_del st s = (delState st s tid i ut sl, some tid) := by
  unfold ue_timer_del
  rcases h1 : indexLookup st.index s with _ | ⟨tid, i⟩
  · left; rfl
  · rcases h2 : st.timers[tid]? with _ | ut
    · left; simp [h2]
    · rcases h3 : ut.store[i]? with _ | sl
      · left; simp [h2, h3]
      · by_cases h4 : sl.live = true
        · right
          exact ⟨tid, i, ut, sl, rfl, h2, h3, h4, by simp [h2, h3, h4]⟩
        · left
          simp only [Bool.not_eq_true] at h4
          simp [h2, h3, h4]

theorem ue_timer_tick_eq (st : UeState) (tid now : Nat) (ut : ue_timer)
    (hut : st.timers[tid]? = some ut) :
    ue_timer_tick st tid now = (tickState st tid ut now, (tickSweep st ut now).fired) := by
  simp only [ue_timer_tick, hut]

theorem ue_timer_tick_none (st : UeState) (tid now : Nat)
    (hut : st.timers[tid]? = none) :
    ue_timer_tick st tid now = (st, []) := by
  simp only [ue_timer_tick, hut]

/-- Element view of a swept store: positions inside the processed window are
tombstoned in place, all other positions are untouched. -/
theorem sweptStore_get (T now : Nat) (idx : Index) (store : List Slot)
    (h0 i : Nat) :
    (store.take h0 ++ (sweepList T now idx (store.drop h0)).slots)[i]? =
      if h0 ≤ i ∧ i < h0 + (sweepList T now idx (store.drop h0)).stepped then
        (store[i]?).map killSlot
      else store[i]? := by
  rcases Nat.lt_or_ge i (store.take h0).length with hi | hi
  · rw [List.getElem?_append_left (by omega)]
    have h1 : i < h0 := by
      have := List.length_take h0 store
      omega
    rw [List.getElem?_take]
    simp only [h1, if_true]
    rw [if_neg (by omega)]
  · rw [List.getElem?_append_right hi]
    have hlen : (store.take h0).length = min h0 store.length := by
      simpa using List.length_take h0 store
    rcases le_or_lt h0 store.length with hc | hc
    · have hk : (store.take h0).length = h0 := by omega
      rw [hk] at hi ⊢
      rw [sweepList_slots_get]
      have hdrop : (store.drop h0)[i - h0]? = store[i]? := by
        rw [List.getElem?_drop]
        congr 1
        omega
      rw [hdrop]
      by_cases hin : i - h0 < (sweepList T now idx (store.drop h0)).stepped
      · rw [if_pos hin, if_pos (by omega)]
      · rw [if_neg hin, if_neg (by omega)]
    · have hk : (store.take h0).length = store.length := by omega
      have hstep : (sweepList T now idx (store.drop h0)).stepped = 0 := by
        have := sweepList_stepped_le T now (store.drop h0) idx
        have : (store.drop h0).length = 0 := by
          rw [List.length_drop]
          omega
        omega
      have hnone : store[i]? = none := by
        rw [List.getElem?_eq_none]
        omega
      have hnone2 :
          (sweepList T now idx (store.drop h0)).slots[i - (store.take h0).length]? = none := by
        rw [List.getElem?_eq_none]
        rw [sweepList_slots_length]
        rw [List.length_drop]
        omega
      rw [hnone2, hnone]
      rw [if_neg (by omega)]

theorem addState_timers_self (st : UeState) (tid : Nat) (ut : ue_timer)
    (pl : Option (List Nat)) (now : Nat) (ht : tid < st.timers.length) :
    (addState st tid ut pl now).timers[tid]? =
      some { ut with store := ut.store ++ [⟨allocSeq st.lastSeq, now, payloadBytes ut.session_size pl, true⟩],
                     liveCount := ut.liveCount + 1 } := by
  simp only [addState]
  exact List.getElem?_set_self (by simpa using ht)

theorem addState_timers_other (st : UeState) (tid : Nat) (ut : ue_timer)
    (pl : Option (List Nat)) (now t : Nat) (h : tid ≠ t) :
    (addState st tid ut pl now).timers[t]? = st.timers[t]? := by
  simp only [addState]
  exact List.getElem?_set_ne h

theorem delState_timers_self (st : UeState) (s tid i : Nat) (ut : ue_timer)
    (sl : Slot) (ht : tid < st.timers.length) :
    (delState st s tid i ut sl).timers[tid]? =
      some { ut with store := ut.store.set i (killSlot sl),
                     liveCount := ut.liveCount - 1 } := by
  simp only [delState]
  exact List.getElem?_set_self (by simpa using ht)

theorem delState_timers_other (st : UeState) (s tid i : Nat) (ut : ue_timer)
    (sl : Slot) (t : Nat) (h : tid ≠ t) :
    (delState st s tid i ut sl).timers[t]? = st.timers[t]? := by
  simp only [delState]
  exact List.getElem?_set_ne h

theorem tickState_timers_self (st : UeState) (tid : Nat) (ut : ue_timer)
    (now : Nat) (ht : tid < st.timers.length) :
    (tickState st tid ut now).timers[tid]? =
      some { ut with store := ut.store.take ut.head ++ (tickSweep st ut now).slots,
                     head := ut.head + (tickSweep st ut now).stepped,
                     liveCount := ut.liveCount - (tickSweep st ut now).fired.length } := by
  simp only [tickState]
  exact List.getElem?_set_self (by simpa using ht)

theorem tickState_timers_other (st : UeState) (tid : Nat) (ut : ue_timer)
    (now t : Nat) (h : tid ≠ t) :
    (tickState st tid ut now).timers[t]? = st.timers[t]? := by
  simp only [tickState]
  exact List.getElem?_set_ne h

/-- Every operation leaves every existing slot's identity (header sequence,
insertion timestamp, payload bytes) in place; only the liveness flag can
change, and stores and the timer list never shrink. -/
theorem stepOp_slotAt (st : UeState) (op : UeOp) (t i : Nat) (sl : Slot)
    (h : SlotAt st t i = some sl) :
    ∃ sl', SlotAt (stepOp st op).1 t i = some sl' ∧ sl'.seq = sl.seq ∧
      sl'.birth = sl.birth ∧ sl'.payload = sl.payload ∧
      (sl'.live = true → sl.live = true) := by
  rcases (SlotAt_eq_some st t i sl).mp h with ⟨ut, hut, hsl⟩
  have ht : t < st.timers.length := (List.getElem?_eq_some.mp hut).1
  have hi : i < ut.store.length := (List.getElem?_eq_some.mp hsl).1
  cases op with
  | create t0 sz =>
    refine ⟨sl, ?_, rfl, rfl, rfl, fun hx => hx⟩
    rw [SlotAt_eq_some]
    refine ⟨ut, ?_, hsl⟩
    simp only [stepOp, ue_timer_create]
    rw [List.getElem?_append_left (by simpa using ht)]
    exact hut
  | add tid pl now =>
    rcases h2 : st.timers[tid]? with _ | utA
    · refine ⟨sl, ?_, rfl, rfl, rfl, fun hx => hx⟩
      simp only [stepOp, ue_timer_add_none st tid pl now h2]
      rw [SlotAt_eq_some]
      exact ⟨ut, hut, hsl⟩
    · refine ⟨sl, ?_, rfl, rfl, rfl, fun hx => hx⟩
      simp only [stepOp, ue_timer_add_eq st tid pl now utA h2]
      rw [SlotAt_eq_some]
      by_cases he : t = tid
      · subst he
        have hu : utA = ut := Option.some_injective _ (h2.symm.trans hut)
        subst hu
        refine ⟨_, addState_timers_self st t utA pl now ht, ?_⟩
        rw [List.getElem?_append_left (by simpa using hi)]
        exact hsl
      · refine ⟨ut, ?_, hsl⟩
        rw [addState_timers_other st tid utA pl now t (fun hx => he hx.symm)]
        exact hut
  | del s =>
    rcases ue_timer_del_cases st s with hdel | ⟨tidD, iD, utD, slD, hl, h2, h3, h4, hdel⟩
    · refine ⟨sl, ?_, rfl, rfl, rfl, fun hx => hx⟩
      simp only [stepOp, hdel]
      rw [SlotAt_eq_some]
      exact ⟨ut, hut, hsl⟩
    · by_cases he : t = tidD
      · subst he
        have hu : utD = ut := Option.some_injective _ (h2.symm.trans hut)
        subst hu
        by_cases hie : i = iD
        · subst hie
          have hs : slD = sl := Option.some_injective _ (h3.symm.trans hsl)
          subst hs
          refine ⟨killSlot slD, ?_, rfl, rfl, rfl, fun hx => by simp [killSlot] at hx⟩
          simp only [stepOp, hdel]
          rw [SlotAt_eq_some]
          refine ⟨_, delState_timers_self st s t i utD slD ht, ?_⟩
          exact List.getElem?_set_self (by simpa using hi)
        · refine ⟨sl, ?_, rfl, rfl, rfl, fun hx => hx⟩
          simp only [stepOp, hdel]
          rw [SlotAt_eq_some]
          refine ⟨_, delState_timers_self st s t iD utD slD ht, ?_⟩
          rw [List.getElem?_set_ne (fun hx => hie hx.symm)]
          exact hsl
      · refine ⟨sl, ?_, rfl, rfl, rfl, fun hx => hx⟩
        simp only [stepOp, hdel]
        rw [SlotAt_eq_some]
        refine ⟨ut, ?_, hsl⟩
        rw [delState_timers_other st s tidD iD utD slD t (fun hx => he hx.symm)]
        exact hut
  | tick tid now =>
    rcases h2 : st.timers[tid]? with _ | utT
    · refine ⟨sl, ?_, rfl, rfl, rfl, fun hx => hx⟩
      simp only [stepOp, ue_timer_tick_none st tid now h2]
      rw [SlotAt_eq_some]
      exact ⟨ut, hut, hsl⟩
    · by_cases he : t = tid
      · subst he
        have hu : utT = ut := Option.some_injective _ (h2.symm.trans hut)
        subst hu
        have hget := sweptStore_get utT.timeout now st.index utT.store utT.head i
        by_cases hwin : utT.head ≤ i ∧
            i < utT.head + (sweepList utT.timeout now st.index (utT.store.drop utT.head)).stepped
        · refine ⟨killSlot sl, ?_, rfl, rfl, rfl, fun hx => by simp [killSlot] at hx⟩
          simp only [stepOp, ue_timer_tick_eq st t now utT h2]
          rw [SlotAt_eq_some]
          refine ⟨_, tickState_timers_self st t utT now ht, ?_⟩
          simp only [tickSweep]
          rw [hget, if_pos hwin, hsl]
          rfl
        · refine ⟨sl, ?_, rfl, rfl, rfl, fun hx => hx⟩
          simp only [stepOp, ue_timer_tick_eq st t now utT h2]
          rw [SlotAt_eq_some]
          refine ⟨_, tickState_timers_self st t utT now ht, ?_⟩
          simp only [tickSweep]
          rw [hget, if_neg hwin]
          exact hsl
      · refine ⟨sl, ?_, rfl, rfl, rfl, fun hx => hx⟩
        simp only [stepOp, ue_timer_tick_eq st tid now utT h2]
        rw [SlotAt_eq_some]
        refine ⟨ut, ?_, hsl⟩
        rw [tickState_timers_other st tid utT now t (fun hx => he hx.symm)]
        exact hut

/-- Slot identity is stable across any whole trace of operations. -/
theorem execOps_slotAt (ops : List UeOp) :
    ∀ st t i sl, SlotAt st t i = some sl →
      ∃ sl', SlotAt (execOps st ops).1 t i = some sl' ∧ sl'.seq = sl.seq ∧
        sl'.birth = sl.birth ∧ sl'.payload = sl.payload ∧
        (sl'.live = true → sl.live = true) := by
  induction ops with
  | nil => intro st t i sl h; exact ⟨sl, h, rfl, rfl, rfl, fun hx => hx⟩
  | cons op rest ih =>
    intro st t i sl h
    rcases stepOp_slotAt st op t i sl h with ⟨sl1, h1, e1, e2, e3, e4⟩
    rcases ih (stepOp st op).1 t i sl1 h1 with ⟨sl2, h2, f1, f2, f3, f4⟩
    exact ⟨sl2, h2, by rw [f1, e1], by rw [f2, e2], by rw [f3, e3],
      fun hx => e4 (f4 hx)⟩

theorem sequence_of_slotAt (st : UeState) (t i : Nat) (sl : Slot)
    (h : SlotAt st t i = some sl) : ue_timer_sequence st (t, i) = sl.seq := by
  rcases (SlotAt_eq_some st t i sl).mp h with ⟨ut, hut, hsl⟩
  simp [ue_timer_sequence, hut, hsl]

theorem which_of_slotAt (st : UeState) (t i : Nat) (sl : Slot)
    (h : SlotAt st t i = some sl) : ue_timer_which st (t, i) = some t := by
  rcases (SlotAt_eq_some st t i sl).mp h with ⟨ut, hut, hsl⟩
  have hi : i < ut.store.length := (List.getElem?_eq_some.mp hsl).1
  simp [ue_timer_which, hut, hi]

/-! ### Claim C1 -/

/-- C1. For every Timer Instance and payload `p` of the declared
`session_size`, `get` on the sequence returned by `add p` immediately
afterwards returns a payload equal to `p`; when `p` is absent the returned
payload is zero filled. -/
theorem ue_get_after_add (st : UeState) (tid now : Nat) (ut : ue_timer)
    (pl : Option (List Nat)) (hut : st.timers[tid]? = some ut)
    (hlen : ∀ p, pl = some p → p.length = ut.session_size) :
    ∃ st' s i, ue_timer_add st tid pl now = some (st', s, tid, i) ∧
      ue_timer_get st' s = some (tid, i) ∧
      derefPayload st' (tid, i) = some (pl.getD (zeroPayload ut.session_size)) := by
  have htid : tid < st.timers.length := by
    rcases List.getElem?_eq_some.mp hut with ⟨h, _⟩
    exact h
  unfold ue_timer_add
  rw [hut]
  refine ⟨_, _, _, rfl, ?_, ?_⟩
  · simp only [ue_timer_get, addState, indexLookup, eq_self_iff_true, if_true]
    rw [List.getElem?_set_self (by simpa using htid)]
    simp [List.getElem?_concat_length]
  · simp only [derefPayload, addState]
    rw [List.getElem?_set_self (by simpa using htid)]
    simp only [List.getElem?_concat_length, Option.map_some']
    rcases pl with _ | p
    · simp [payloadBytes]
    · simp [payloadBytes, copyPayload_of_length p ut.session_size (hlen p rfl)]

/-- Witness state for C1: one fresh timer with session size 2. -/
def oneTimerState : UeState := (ue_timer_create initState 5 2).1

/-- C1 witness: the theorem applied at a concrete state and payload. -/
theorem ue_get_after_add_witness :
    ∃ st' s i, ue_timer_add oneTimerState 0 (some [7, 9]) 3 = some (st', s, 0, i) ∧
      ue_timer_get st' s = some (0, i) ∧
      derefPayload st' (0, i) = some [7, 9] :=
  ue_get_after_add oneTimerState 0 3 ⟨5, 2, [], 0, 0⟩ (some [7, 9])
    (by decide) (by intro p hp; cases hp; decide)

/-! ### Claim C3 -/

/-- C3. After `del s` on a previously live sequence `s`, a subsequent
`get s` fails with NotFound, and a second `del s` is a no-op reporting no
hit (deletion is idempotent and surfaces no failure). -/
theorem ue_del_get_del (st : UeState) (s : Nat) (ad : Nat × Nat)
    (hlive : ue_timer_get st s = some ad) :
    ue_timer_get (ue_timer_del st s).1 s = none ∧
    ue_timer_del (ue_timer_del st s).1 s = ((ue_timer_del st s).1, none) :=
  ⟨ue_timer_get_del_self st s, ue_timer_del_del_self st s⟩

/-- Witness state for C3: a fresh timer holding one live session. -/
def oneLiveState : UeState :=
  ((ue_timer_add (ue_timer_create initState 5 2).1 0 none 0).getD
    (initState, 0, 0, 0)).1

/-- C3 witness: the theorem applied at a concrete live sequence. -/
theorem ue_del_get_del_witness :
    ue_timer_get oneLiveState 1 = some (0, 0) ∧
    (ue_timer_get (ue_timer_del oneLiveState 1).1 1 = none ∧
     ue_timer_del (ue_timer_del oneLiveState 1).1 1 =
       ((ue_timer_del oneLiveState 1).1, none)) :=
  ⟨by decide, ue_del_get_del oneLiveState 1 (0, 0) (by decide)⟩

/-! ### Claim C6 -/

/-- C6. For a payload address returned by `add`, `ue_timer_sequence`
recovers the assigned sequence and `ue_timer_which` the owning Timer
Instance — immediately, and still after any further trace of operations
(slot headers are never rewritten and stores never shrink). -/
theorem ue_reverse_lookups (st : UeState) (tid now : Nat) (ut : ue_timer)
    (pl : Option (List Nat)) (st' : UeState) (s i : Nat)
    (hut : st.timers[tid]? = some ut)
    (hadd : ue_timer_add st tid pl now = some (st', s, tid, i)) :
    ue_timer_sequence st' (tid, i) = s ∧ ue_timer_which st' (tid, i) = some tid ∧
    ∀ ops, ue_timer_sequence (execOps st' ops).1 (tid, i) = s ∧
      ue_timer_which (execOps st' ops).1 (tid, i) = some tid := by
  have ht : tid < st.timers.length := (List.getElem?_eq_some.mp hut).1
  rw [ue_timer_add_eq st tid pl now ut hut] at hadd
  simp only [Option.some.injEq, Prod.mk.injEq] at hadd
  obtain ⟨hst, hs, -, hi⟩ := hadd
  subst hst
  subst hs
  subst hi
  have hslot : SlotAt (addState st tid ut pl now) tid ut.store.length =
      some ⟨allocSeq st.lastSeq, now, payloadBytes ut.session_size pl, true⟩ := by
    rw [SlotAt_eq_some]
    exact ⟨_, addState_timers_self st tid ut pl now ht,
      by simp [List.getElem?_concat_length]⟩
  refine ⟨sequence_of_slotAt _ _ _ _ hslot, which_of_slotAt _ _ _ _ hslot, ?_⟩
  intro ops
  rcases execOps_slotAt ops _ _ _ _ hslot with ⟨sl', h', e1, -, -, -⟩
  exact ⟨by rw [sequence_of_slotAt _ _ _ _ h', e1], which_of_slotAt _ _ _ _ h'⟩

/-- Witness state for C6: one fresh timer holding one freshly added session. -/
def c6Added : UeState :=
  ((ue_timer_add (ue_timer_create initState 4 1).1 0 none 2).getD
    (initState, 0, 0, 0)).1

/-- C6 witness: the theorem applied at a concrete state, with a concrete
follow-up trace instantiating the stability clause. -/
theorem ue_reverse_lookups_witness :
    ue_timer_sequence c6Added (0, 0) = 1 ∧ ue_timer_which c6Added (0, 0) = some 0 ∧
    (ue_timer_sequence (execOps c6Added [UeOp.tick 0 9]).1 (0, 0) = 1 ∧
     ue_timer_which (execOps c6Added [UeOp.tick 0 9]).1 (0, 0) = some 0) := by
  have h := ue_reverse_lookups (ue_timer_create initState 4 1).1 0 2 ⟨4, 1, [], 0, 0⟩
    none c6Added 1 0 (by decide) (by decide)
  exact ⟨h.1, h.2.1, h.2.2 [UeOp.tick 0 9]⟩

/-! ### Claim C2 -/

theorem allocSeq_of_lt (last : Nat) (h : last + 1 < 2 ^ 32) :
    allocSeq last = last + 1 := by
  unfold allocSeq
  rw [Nat.mod_eq_of_lt h]
  simp

/-- Along any trace whose add budget stays below the 32-bit wraparound
point, the sequences handed out are exactly the consecutive block above the
allocator's starting value. -/
theorem execOps_seqs (ops : List UeOp) :
    ∀ st : UeState, st.lastSeq + numAddOps ops ≤ 2 ^ 32 - 1 →
      addedSeqs (execOps st ops).2 =
        List.range' (st.lastSeq + 1) ((execOps st ops).1.lastSeq - st.lastSeq) ∧
      st.lastSeq ≤ (execOps st ops).1.lastSeq ∧
      (execOps st ops).1.lastSeq ≤ st.lastSeq + numAddOps ops := by
  induction ops with
  | nil =>
    intro st hb
    refine ⟨?_, le_refl _, by simp [numAddOps, execOps]⟩
    simp [execOps, addedSeqs]
  | cons op rest ih =>
    intro st hb
    cases op with
    | create t0 sz =>
      have hcnt : numAddOps (UeOp.create t0 sz :: rest) = numAddOps rest := by
        simp [numAddOps]
      have hls : ((stepOp st (UeOp.create t0 sz)).1).lastSeq = st.lastSeq := rfl
      have hstep : stepOp st (UeOp.create t0 sz) =
          ((stepOp st (UeOp.create t0 sz)).1, []) := rfl
      rcases ih (stepOp st (UeOp.create t0 sz)).1 (by rw [hls]; omega) with ⟨h1, h2, h3⟩
      rw [hls] at h1 h2 h3
      refine ⟨?_, ?_, ?_⟩
      · simp only [execOps, addedSeqs, List.filterMap_append]
        rw [hstep]
        simpa [addedSeqs] using h1
      · simpa [execOps] using h2
      · rw [hcnt]
        simpa [execOps] using h3
    | add tid pl now =>
      have hcnt : numAddOps (UeOp.add tid pl now :: rest) = numAddOps rest + 1 := by
        simp [numAddOps, Nat.add_comm]
      rcases h2 : st.timers[tid]? with _ | ut
      · have hstep : stepOp st (UeOp.add tid pl now) = (st, []) := by
          simp [stepOp, ue_timer_add_none st tid pl now h2]
        rcases ih st (by rw [hcnt] at hb; omega) with ⟨h1, hle, hup⟩
        refine ⟨?_, ?_, ?_⟩
        · simp only [execOps, addedSeqs, List.filterMap_append]
          rw [hstep]
          simpa [addedSeqs] using h1
        · simpa [execOps, hstep] using hle
        · rw [hcnt]
          simp only [execOps, hstep]
          omega
      · have hlt : st.lastSeq + 1 < 2 ^ 32 := by
          rw [hcnt] at hb
          have : (2 : Nat) ^ 32 - 1 < 2 ^ 32 := by norm_num
          omega
        have halloc : allocSeq st.lastSeq = st.lastSeq + 1 := allocSeq_of_lt _ hlt
        have hstep : stepOp st (UeOp.add tid pl now) =
            (addState st tid ut pl now, [UeEvent.added tid (st.lastSeq + 1) now]) := by
          simp [stepOp, ue_timer_add_eq st tid pl now ut h2, halloc]
        have hls : (addState st tid ut pl now).lastSeq = st.lastSeq + 1 := by
          simp [addState, halloc]
        rcases ih (addState st tid ut pl now) (by rw [hls]; rw [hcnt] at hb; omega)
          with ⟨h1, hle, hup⟩
        rw [hls] at h1 hle hup
        have hrun : execOps st (UeOp.add tid pl now :: rest) =
            ((execOps (addState st tid ut pl now) rest).1,
             UeEvent.added tid (st.lastSeq + 1) now ::
               (execOps (addState st tid ut pl now) rest).2) := by
          simp only [execOps]
          rw [hstep]
          rfl
        have hfst : (execOps st (UeOp.add tid pl now :: rest)).1 =
            (execOps (addState st tid ut pl now) rest).1 := by
          rw [hrun]
        refine ⟨?_, ?_, ?_⟩
        · simp only [execOps, addedSeqs, List.filterMap_append]
          rw [hstep]
          simp only [addedSeqs] at h1
          simp only [List.filterMap_cons, List.filterMap_nil]
          rw [h1]
          have hn : (execOps (addState st tid ut pl now) rest).1.lastSeq - st.lastSeq =
              ((execOps (addState st tid ut pl now) rest).1.lastSeq - (st.lastSeq + 1)) + 1 := by
            omega
          rw [hn, List.range'_succ]
          simp
        · rw [hfst]
          omega
        · rw [hfst, hcnt]
          omega
    | del s =>
      have hcnt : numAddOps (UeOp.del s :: rest) = numAddOps rest := by
        simp [numAddOps]
      have hls : ((stepOp st (UeOp.del s)).1).lastSeq = st.lastSeq := by
        rcases ue_timer_del_cases st s with hdel | ⟨tid, i, ut, sl, -, -, -, -, hdel⟩
        · simp [stepOp, hdel]
        · simp [stepOp, hdel, delState]
      have hnoadd : addedSeqs (stepOp st (UeOp.del s)).2 = [] := by
        rcases ue_timer_del_cases st s with hdel | ⟨tid, i, ut, sl, -, -, -, -, hdel⟩
        · simp [stepOp, hdel, addedSeqs]
        · simp [stepOp, hdel, addedSeqs]
      rcases ih (stepOp st (UeOp.del s)).1 (by rw [hls]; omega) with ⟨h1, h2, h3⟩
      rw [hls] at h1 h2 h3
      refine ⟨?_, ?_, ?_⟩
      · simp only [execOps, addedSeqs, List.filterMap_append]
        simp only [addedSeqs] at hnoadd h1
        rw [hnoadd, h1]
        simp
      · simpa [execOps] using h2
      · rw [hcnt]
        simpa [execOps] using h3
    | tick tid now =>
      have hcnt : numAddOps (UeOp.tick tid now :: rest) = numAddOps rest := by
        simp [numAddOps]
      have hls : ((stepOp st (UeOp.tick tid now)).1).lastSeq = st.lastSeq := by
        rcases h2 : st.timers[tid]? with _ | ut
        · simp [stepOp, ue_timer_tick_none st tid now h2]
        · simp [stepOp, ue_timer_tick_eq st tid now ut h2, tickState]
      have hnoadd : addedSeqs (stepOp st (UeOp.tick tid now)).2 = [] := by
        rcases h2 : st.timers[tid]? with _ | ut
        · simp [stepOp, ue_timer_tick_none st tid now h2, addedSeqs]
        · simp [stepOp, ue_timer_tick_eq st tid now ut h2, addedSeqs,
            List.filterMap_map]
      rcases ih (stepOp st (UeOp.tick tid now)).1 (by rw [hls]; omega) with ⟨h1, h2, h3⟩
      rw [hls] at h1 h2 h3
      refine ⟨?_, ?_, ?_⟩
      · simp only [execOps, addedSeqs, List.filterMap_append]
        simp only [addedSeqs] at hnoadd h1
        rw [hnoadd, h1]
        simp
      · simpa [execOps] using h2
      · rw [hcnt]
        simpa [execOps] using h3

/-- C2. Over any trace of operations, every sequence returned by `add` is
non-zero, and before 2^32 - 1 additions have occurred the returned
sequences are pairwise distinct. -/
theorem ue_add_seqs_nonzero_distinct (ops : List UeOp)
    (hbudget : numAddOps ops ≤ 2 ^ 32 - 1) :
    (∀ q ∈ addedSeqs (execOps initState ops).2, q ≠ 0) ∧
    (addedSeqs (execOps initState ops).2).Nodup := by
  rcases execOps_seqs ops initState (by simpa [initState] using hbudget)
    with ⟨h1, -, -⟩
  rw [h1]
  constructor
  · intro q hq
    rcases List.mem_range'_1.mp hq with ⟨hq1, -⟩
    simp only [initState] at hq1
    omega
  · exact List.nodup_range' _ _

/-- C2 witness: a concrete trace of three additions across two timers. -/
theorem ue_add_seqs_nonzero_distinct_witness :
    numAddOps [UeOp.create 5 1, UeOp.create 7 2, UeOp.add 0 none 0,
      UeOp.add 1 none 1, UeOp.del 1, UeOp.add 0 none 2] ≤ 2 ^ 32 - 1 ∧
    (addedSeqs (execOps initState [UeOp.create 5 1, UeOp.create 7 2,
      UeOp.add 0 none 0, UeOp.add 1 none 1, UeOp.del 1,
      UeOp.add 0 none 2]).2).Nodup :=
  ⟨by decide, (ue_add_seqs_nonzero_distinct _ (by decide)).2⟩

/-! ### Sweep branch equations -/

theorem sweepList_cons_live (T now : Nat) (idx : Index) (sl : Slot)
    (rest : List Slot) (hd : sl.birth + T ≤ now) (hl : sl.live = true) :
    sweepList T now idx (sl :: rest) =
      ⟨killSlot sl :: (sweepList T now (indexRemove idx sl.seq) rest).slots,
       (sweepList T now (indexRemove idx sl.seq) rest).stepped + 1,
       (sweepList T now (indexRemove idx sl.seq) rest).idx,
       sl.seq :: (sweepList T now (indexRemove idx sl.seq) rest).fired⟩ := by
  simp [sweepList, hd, hl]

theorem sweepList_cons_dead (T now : Nat) (idx : Index) (sl : Slot)
    (rest : List Slot) (hd : sl.birth + T ≤ now) (hl : sl.live = false) :
    sweepList T now idx (sl :: rest) =
      ⟨sl :: (sweepList T now idx rest).slots,
       (sweepList T now idx rest).stepped + 1,
       (sweepList T now idx rest).idx,
       (sweepList T now idx rest).fired⟩ := by
  simp [sweepList, hd, hl]

theorem sweepList_cons_stop (T now : Nat) (idx : Index) (sl : Slot)
    (rest : List Slot) (hd : ¬ (sl.birth + T ≤ now)) :
    sweepList T now idx (sl :: rest) = ⟨sl :: rest, 0, idx, []⟩ := by
  simp [sweepList, hd]

/-! ### Claim C5 -/

/-- Number of live slots in a store. -/
def countLive (l : List Slot) : Nat := (l.filter fun sl => sl.live).length

/-- The counter invariant: every instance's maintained live counter equals
the number of live slots of its store. -/
abbrev InvG (st : UeState) : Prop :=
  ∀ (tid : Nat) (ut : ue_timer), st.timers[tid]? = some ut →
    ut.liveCount = countLive ut.store

theorem countLive_set_kill (l : List Slot) :
    ∀ (i : Nat) (sl : Slot), l[i]? = some sl → sl.live = true →
      countLive (l.set i (killSlot sl)) + 1 = countLive l := by
  induction l with
  | nil => intro i sl h; simp at h
  | cons x rest ih =>
    intro i sl h hl
    cases i with
    | zero =>
      simp only [List.getElem?_cons_zero, Option.some.injEq] at h
      subst h
      simp [countLive, List.filter_cons, hl, killSlot]
    | succ i =>
      simp only [List.getElem?_cons_succ] at h
      have hrec := ih i sl h hl
      by_cases hx : x.live = true
      · simp only [List.set_cons_succ, countLive, List.filter_cons, hx, if_true,
          List.length_cons]
        simp only [countLive] at hrec
        omega
      · simp only [Bool.not_eq_true] at hx
        simp only [List.set_cons_succ, countLive, List.filter_cons, hx,
          Bool.false_eq_true, if_false]
        simp only [countLive] at hrec
        omega

theorem countLive_pos (l : List Slot) (i : Nat) (sl : Slot)
    (h : l[i]? = some sl) (hl : sl.live = true) : 1 ≤ countLive l := by
  have := countLive_set_kill l i sl h hl
  omega

theorem countLive_cons_live (sl : Slot) (rest : List Slot) (hl : sl.live = true) :
    countLive (sl :: rest) = countLive rest + 1 := by
  simp [countLive, List.filter_cons, hl]

theorem countLive_cons_dead (sl : Slot) (rest : List Slot) (hl : sl.live = false) :
    countLive (sl :: rest) = countLive rest := by
  simp [countLive, List.filter_cons, hl]

theorem countLive_kill_cons (sl : Slot) (rest : List Slot) :
    countLive (killSlot sl :: rest) = countLive rest := by
  simp [countLive, List.filter_cons, killSlot]

theorem countLive_append (a b : List Slot) :
    countLive (a ++ b) = countLive a + countLive b := by
  simp [countLive, List.filter_append]

theorem sweepList_countLive (T now : Nat) (l : List Slot) :
    ∀ idx, countLive (sweepList T now idx l).slots +
      (sweepList T now idx l).fired.length = countLive l := by
  induction l with
  | nil => intro idx; simp [sweepList, countLive]
  | cons sl rest ih =>
    intro idx
    by_cases hd : sl.birth + T ≤ now
    · by_cases hl : sl.live = true
      · rw [sweepList_cons_live T now idx sl rest hd hl]
        have h1 := ih (indexRemove idx sl.seq)
        have h2 := countLive_kill_cons sl (sweepList T now (indexRemove idx sl.seq) rest).slots
        have h3 := countLive_cons_live sl rest hl
        simp only [List.length_cons]
        omega
      · simp only [Bool.not_eq_true] at hl
        rw [sweepList_cons_dead T now idx sl rest hd hl]
        have h1 := ih idx
        have h2 := countLive_cons_dead sl (sweepList T now idx rest).slots hl
        have h3 := countLive_cons_dead sl rest hl
        dsimp only
        omega
    · rw [sweepList_cons_stop T now idx sl rest hd]
      simp

/-- One operation preserves the counter invariant. -/
theorem stepOp_InvG (st : UeState) (op : UeOp) (h : InvG st) :
    InvG (stepOp st op).1 := by
  cases op with
  | create t0 sz =>
    intro tid ut hut
    simp only [stepOp, ue_timer_create] at hut
    rcases Nat.lt_or_ge tid st.timers.length with hlt | hge
    · rw [List.getElem?_append_left hlt] at hut
      exact h tid ut hut
    · rw [List.getElem?_append_right hge] at hut
      rcases Nat.eq_or_lt_of_le hge with he | hgt
      · rw [← he, Nat.sub_self] at hut
        simp only [List.getElem?_cons_zero, Option.some.injEq] at hut
        subst hut
        simp [countLive]
      · rw [List.getElem?_eq_none (by simp; omega)] at hut
        cases hut
  | add tidA pl now =>
    rcases h2 : st.timers[tidA]? with _ | utA
    · intro tid ut hut
      simp only [stepOp, ue_timer_add_none st tidA pl now h2] at hut
      exact h tid ut hut
    · intro tid ut hut
      simp only [stepOp, ue_timer_add_eq st tidA pl now utA h2] at hut
      by_cases he : tidA = tid
      · subst he
        rw [addState_timers_self st tidA utA pl now
          (List.getElem?_eq_some.mp h2).1] at hut
        simp only [Option.some.injEq] at hut
        subst hut
        simp only [countLive_append]
        have hg := h tidA utA h2
        rw [countLive_cons_live _ _ rfl]
        simp [countLive, hg]
      · rw [addState_timers_other st tidA utA pl now tid he] at hut
        exact h tid ut hut
  | del s =>
    rcases ue_timer_del_cases st s with hdel | ⟨tidD, iD, utD, slD, hl, h2, h3, h4, hdel⟩
    · intro tid ut hut
      simp only [stepOp, hdel] at hut
      exact h tid ut hut
    · intro tid ut hut
      simp only [stepOp, hdel] at hut
      by_cases he : tidD = tid
      · subst he
        rw [delState_timers_self st s tidD iD utD slD
          (List.getElem?_eq_some.mp h2).1] at hut
        simp only [Option.some.injEq] at hut
        subst hut
        have hk := countLive_set_kill utD.store iD slD h3 h4
        have hg := h tidD utD h2
        simp only
        omega
      · rw [delState_timers_other st s tidD iD utD slD tid he] at hut
        exact h tid ut hut
  | tick tidT now =>
    rcases h2 : st.timers[tidT]? with _ | utT
    · intro tid ut hut
      simp only [stepOp, ue_timer_tick_none st tidT now h2] at hut
      exact h tid ut hut
    · intro tid ut hut
      simp only [stepOp, ue_timer_tick_eq st tidT now utT h2] at hut
      by_cases he : tidT = tid
      · subst he
        rw [tickState_timers_self st tidT utT now
          (List.getElem?_eq_some.mp h2).1] at hut
        simp only [Option.some.injEq] at hut
        subst hut
        have hs := sweepList_countLive utT.timeout now (utT.store.drop utT.head)
          st.index
        have hsplit : countLive utT.store =
            countLive (utT.store.take utT.head) + countLive (utT.store.drop utT.head) := by
          rw [← countLive_append, List.take_append_drop]
        have hg := h tidT utT h2
        simp only [countLive_append, tickSweep]
        omega
      · rw [tickState_timers_other st tidT utT now tid he] at hut
        exact h tid ut hut

theorem ue_timer_num_some (st : UeState) (tid : Nat) (ut : ue_timer)
    (h : st.timers[tid]? = some ut) : ue_timer_num st tid = ut.liveCount := by
  simp [ue_timer_num, h]

theorem ue_timer_num_none (st : UeState) (tid : Nat)
    (h : st.timers[tid]? = none) : ue_timer_num st tid = 0 := by
  simp [ue_timer_num, h]

theorem create_num (st : UeState) (t0 sz tid : Nat) :
    ue_timer_num ((ue_timer_create st t0 sz).1) tid = ue_timer_num st tid := by
  rcases hchk : st.timers[tid]? with _ | ut
  · have hge : st.timers.length ≤ tid := by
      by_contra hc
      push_neg at hc
      rw [List.getElem?_eq_getElem hc] at hchk
      cases hchk
    simp only [ue_timer_num, ue_timer_create, hchk]
    rw [List.getElem?_append_right hge]
    rcases Nat.eq_or_lt_of_le hge with he | hgt
    · rw [← he, Nat.sub_self]
      simp
    · rw [List.getElem?_eq_none (by simp; omega)]
  · simp only [ue_timer_num, ue_timer_create, hchk]
    rw [List.getElem?_append_left (List.getElem?_eq_some.mp hchk).1, hchk]

theorem ue_timer_num_congr (st st' : UeState) (tid : Nat)
    (h : st'.timers[tid]? = st.timers[tid]?) :
    ue_timer_num st' tid = ue_timer_num st tid := by
  unfold ue_timer_num
  rw [h]

/-- The per-operation accounting step: the live counter moves exactly with
the events the operation emits. -/
theorem stepOp_count (st : UeState) (op : UeOp) (h : InvG st) (tid : Nat) :
    ue_timer_num (stepOp st op).1 tid + cntDelLive tid (stepOp st op).2 +
      cntExpired tid (stepOp st op).2 =
    ue_timer_num st tid + cntAdded tid (stepOp st op).2 := by
  cases op with
  | create t0 sz =>
    have h1 : (stepOp st (UeOp.create t0 sz)).1 = (ue_timer_create st t0 sz).1 := rfl
    have h2 : (stepOp st (UeOp.create t0 sz)).2 = [] := rfl
    rw [h1, h2, create_num]
    simp [cntAdded, cntDelLive, cntExpired]
  | add tidA pl now =>
    rcases h2 : st.timers[tidA]? with _ | utA
    · have hstep : stepOp st (UeOp.add tidA pl now) = (st, []) := by
        simp [stepOp, ue_timer_add_none st tidA pl now h2]
      rw [hstep]
      simp [cntAdded, cntDelLive, cntExpired]
    · have hstep : stepOp st (UeOp.add tidA pl now) =
          (addState st tidA utA pl now,
           [UeEvent.added tidA (allocSeq st.lastSeq) now]) := by
        simp [stepOp, ue_timer_add_eq st tidA pl now utA h2]
      rw [hstep]
      have hcd : cntDelLive tid [UeEvent.added tidA (allocSeq st.lastSeq) now] = 0 := by
        simp [cntDelLive]
      have hce : cntExpired tid [UeEvent.added tidA (allocSeq st.lastSeq) now] = 0 := by
        simp [cntExpired]
      by_cases he : tidA = tid
      · subst he
        rw [ue_timer_num_some st tidA utA h2]
        rw [ue_timer_num_some _ tidA _ (addState_timers_self st tidA utA pl now
          (List.getElem?_eq_some.mp h2).1)]
        have hca : cntAdded tidA [UeEvent.added tidA (allocSeq st.lastSeq) now] = 1 := by
          simp [cntAdded]
        rw [hca, hcd, hce]
      · rw [ue_timer_num_congr st _ tid
          (addState_timers_other st tidA utA pl now tid he)]
        have hca : cntAdded tid [UeEvent.added tidA (allocSeq st.lastSeq) now] = 0 := by
          simp [cntAdded, List.countP_cons, he]
        rw [hca, hcd, hce]
  | del s =>
    rcases ue_timer_del_cases st s with hdel | ⟨tidD, iD, utD, slD, hl, h2, h3, h4, hdel⟩
    · have hstep : stepOp st (UeOp.del s) = (st, []) := by
        simp [stepOp, hdel]
      rw [hstep]
      simp [cntAdded, cntDelLive, cntExpired]
    · have hstep : stepOp st (UeOp.del s) =
          (delState st s tidD iD utD slD, [UeEvent.delLive tidD s]) := by
        simp [stepOp, hdel]
      rw [hstep]
      have hca : cntAdded tid [UeEvent.delLive tidD s] = 0 := by
        simp [cntAdded]
      have hce : cntExpired tid [UeEvent.delLive tidD s] = 0 := by
        simp [cntExpired]
      by_cases he : tidD = tid
      · subst he
        rw [ue_timer_num_some st tidD utD h2]
        rw [ue_timer_num_some _ tidD _ (delState_timers_self st s tidD iD utD slD
          (List.getElem?_eq_some.mp h2).1)]
        have hcd : cntDelLive tidD [UeEvent.delLive tidD s] = 1 := by
          simp [cntDelLive]
        rw [hca, hcd, hce]
        have hg := h tidD utD h2
        have hpos := countLive_pos utD.store iD slD h3 h4
        dsimp only
        omega
      · rw [ue_timer_num_congr st _ tid
          (delState_timers_other st s tidD iD utD slD tid he)]
        have hcd : cntDelLive tid [UeEvent.delLive tidD s] = 0 := by
          simp [cntDelLive, List.countP_cons, he]
        rw [hca, hcd, hce]
  | tick tidT now =>
    rcases h2 : st.timers[tidT]? with _ | utT
    · have hstep : stepOp st (UeOp.tick tidT now) = (st, []) := by
        simp [stepOp, ue_timer_tick_none st tidT now h2]
      rw [hstep]
      simp [cntAdded, cntDelLive, cntExpired]
    · have hstep : stepOp st (UeOp.tick tidT now) =
          (tickState st tidT utT now,
           (tickSweep st utT now).fired.map fun q => UeEvent.expired tidT q now) := by
        simp [stepOp, ue_timer_tick_eq st tidT now utT h2]
      rw [hstep]
      have hca : cntAdded tid
          ((tickSweep st utT now).fired.map fun q => UeEvent.expired tidT q now) = 0 := by
        simp [cntAdded, List.countP_map, Function.comp]
      have hcd : cntDelLive tid
          ((tickSweep st utT now).fired.map fun q => UeEvent.expired tidT q now) = 0 := by
        simp [cntDelLive, List.countP_map, Function.comp]
      rw [hca, hcd]
      by_cases he : tidT = tid
      · subst he
        rw [ue_timer_num_some st tidT utT h2]
        rw [ue_timer_num_some _ tidT _ (tickState_timers_self st tidT utT now
          (List.getElem?_eq_some.mp h2).1)]
        have hce : cntExpired tidT
            ((tickSweep st utT now).fired.map fun q => UeEvent.expired tidT q now) =
            (tickSweep st utT now).fired.length := by
          simp [cntExpired, List.countP_map, Function.comp, List.countP_true]
        rw [hce]
        have hs := sweepList_countLive utT.timeout now (utT.store.drop utT.head) st.index
        have hsplit : countLive utT.store =
            countLive (utT.store.take utT.head) + countLive (utT.store.drop utT.head) := by
          rw [← countLive_append, List.take_append_drop]
        have hg := h tidT utT h2
        simp only [tickSweep] at *
        omega
      · rw [ue_timer_num_congr st _ tid
          (tickState_timers_other st tidT utT now tid he)]
        have hce : cntExpired tid
            ((tickSweep st utT now).fired.map fun q => UeEvent.expired tidT q now) = 0 := by
          simp [cntExpired, List.countP_map, Function.comp, he]
        rw [hce]

/-- Whole-trace accounting: the live counter equals additions minus live
deletions minus expirations, from any invariant-respecting start. -/
theorem execOps_count (ops : List UeOp) :
    ∀ st : UeState, InvG st → ∀ tid : Nat,
      ue_timer_num (execOps st ops).1 tid + cntDelLive tid (execOps st ops).2 +
        cntExpired tid (execOps st ops).2 =
      ue_timer_num st tid + cntAdded tid (execOps st ops).2 := by
  induction ops with
  | nil =>
    intro st hInv tid
    simp [execOps, cntAdded, cntDelLive, cntExpired]
  | cons op rest ih =>
    intro st hInv tid
    have hstep := stepOp_count st op hInv tid
    have hrec := ih (stepOp st op).1 (stepOp_InvG st op hInv) tid
    have hrun : execOps st (op :: rest) =
        ((execOps (stepOp st op).1 rest).1,
         (stepOp st op).2 ++ (execOps (stepOp st op).1 rest).2) := rfl
    rw [hrun]
    simp only [cntAdded, cntDelLive, cntExpired, List.countP_append] at hstep hrec ⊢
    omega

/-- C5. At every observation point of every trace, `ue_timer_num` on a
Timer Instance equals the number of `add` calls performed on it, minus the
`del` calls that hit a live entry, minus the natural expirations. -/
theorem ue_count_accounting (ops : List UeOp) (tid : Nat) :
    ue_timer_num (execOps initState ops).1 tid =
      cntAdded tid (execOps initState ops).2 -
      cntDelLive tid (execOps initState ops).2 -
      cntExpired tid (execOps initState ops).2 := by
  have h := execOps_count ops initState
    (by intro t ut hut; simp [initState] at hut) tid
  have h0 : ue_timer_num initState tid = 0 := by
    simp [ue_timer_num, initState]
  omega

/-! ### Claim C4: invariants -/

/-- All insertion timestamps in the state are at most `c`. -/
def TimeBound (st : UeState) (c : Nat) : Prop :=
  ∀ (t i : Nat) (sl : Slot), SlotAt st t i = some sl → sl.birth ≤ c

/-- The reachable-state invariant of the timer engine. -/
structure Inv (st : UeState) : Prop where
  idxOk : ∀ e ∈ st.index,
    ∃ sl, SlotAt st e.2.1 e.2.2 = some sl ∧ sl.seq = e.1 ∧ sl.live = true
  seqInj : ∀ (t1 i1 t2 i2 : Nat) (sl1 sl2 : Slot), SlotAt st t1 i1 = some sl1 →
    SlotAt st t2 i2 = some sl2 → sl1.seq = sl2.seq → t1 = t2 ∧ i1 = i2
  seqBound : ∀ (t i : Nat) (sl : Slot), SlotAt st t i = some sl →
    0 < sl.seq ∧ sl.seq ≤ st.lastSeq
  headOk : ∀ (t : Nat) (ut : ue_timer), st.timers[t]? = some ut →
    ut.head ≤ ut.store.length
  prefixDead : ∀ (t : Nat) (ut : ue_timer), st.timers[t]? = some ut →
    ∀ (i : Nat) (sl : Slot), i < ut.head → ut.store[i]? = some sl →
      sl.live = false
  birthMono : ∀ (t : Nat) (ut : ue_timer), st.timers[t]? = some ut →
    ∀ (i j : Nat) (sli slj : Slot), i ≤ j → ut.store[i]? = some sli →
      ut.store[j]? = some slj → sli.birth ≤ slj.birth

theorem TimeBound.mono (st : UeState) (c c' : Nat) (h : TimeBound st c)
    (hcc : c ≤ c') : TimeBound st c' := by
  intro t i sl hsl
  exact le_trans (h t i sl hsl) hcc

theorem Inv_initState : Inv initState := by
  constructor
  · intro e he
    simp [initState] at he
  · intro t1 i1 t2 i2 sl1 sl2 h1
    simp [SlotAt, initState] at h1
  · intro t i sl h1
    simp [SlotAt, initState] at h1
  · intro t ut h1
    simp [initState] at h1
  · intro t ut h1
    simp [initState] at h1
  · intro t ut h1
    simp [initState] at h1

theorem TimeBound_initState (c : Nat) : TimeBound initState c := by
  intro t i sl h1
  simp [SlotAt, initState] at h1

/-! ### Per-operation slot views -/

theorem create_slotAt (st : UeState) (t0 sz t i : Nat) :
    SlotAt ((ue_timer_create st t0 sz).1) t i = SlotAt st t i := by
  rcases Nat.lt_or_ge t st.timers.length with hlt | hge
  · simp only [SlotAt, ue_timer_create]
    rw [List.getElem?_append_left hlt]
  · have h1 : st.timers[t]? = none := List.getElem?_eq_none hge
    simp only [SlotAt, ue_timer_create, h1]
    rw [List.getElem?_append_right hge]
    rcases Nat.eq_or_lt_of_le hge with he | hgt
    · rw [← he, Nat.sub_self]
      simp
    · rw [List.getElem?_eq_none (by simp; omega)]

theorem create_timers_get (st : UeState) (t0 sz t : Nat) (ut : ue_timer)
    (h : ((ue_timer_create st t0 sz).1).timers[t]? = some ut) :
    st.timers[t]? = some ut ∨
      (t = st.timers.length ∧ ut = ⟨t0, sz, [], 0, 0⟩) := by
  simp only [ue_timer_create] at h
  rcases Nat.lt_or_ge t st.timers.length with hlt | hge
  · rw [List.getElem?_append_left hlt] at h
    exact Or.inl h
  · rw [List.getElem?_append_right hge] at h
    rcases Nat.eq_or_lt_of_le hge with he | hgt
    · rw [← he, Nat.sub_self] at h
      simp only [List.getElem?_cons_zero, Option.some.injEq] at h
      exact Or.inr ⟨he.symm, h.symm⟩
    · rw [List.getElem?_eq_none (by simp; omega)] at h
      cases h

theorem add_slotAt (st : UeState) (tid : Nat) (ut : ue_timer)
    (pl : Option (List Nat)) (now : Nat) (hut : st.timers[tid]? = some ut)
    (t i : Nat) :
    SlotAt (addState st tid ut pl now) t i =
      if t = tid ∧ i = ut.store.length then
        some ⟨allocSeq st.lastSeq, now, payloadBytes ut.session_size pl, true⟩
      else SlotAt st t i := by
  have ht : tid < st.timers.length := (List.getElem?_eq_some.mp hut).1
  by_cases he : t = tid
  · subst he
    simp only [SlotAt, addState_timers_self st t ut pl now ht, hut,
      Option.some_bind]
    by_cases hie : i = ut.store.length
    · subst hie
      rw [if_pos (by simp), List.getElem?_concat_length]
    · rw [if_neg (by tauto)]
      rcases Nat.lt_or_ge i ut.store.length with hlt2 | hge2
      · rw [List.getElem?_append_left hlt2]
      · rw [List.getElem?_append_right hge2]
        rw [List.getElem?_eq_none (by simp; omega)]
        rw [List.getElem?_eq_none (by omega)]
  · rw [if_neg (fun hc => he hc.1)]
    simp only [SlotAt, addState_timers_other st tid ut pl now t
      (fun hx => he hx.symm)]

theorem del_slotAt (st : UeState) (s tidD iD : Nat) (utD : ue_timer)
    (slD : Slot) (h2 : st.timers[tidD]? = some utD)
    (h3 : utD.store[iD]? = some slD) (t i : Nat) :
    SlotAt (delState st s tidD iD utD slD) t i =
      if t = tidD ∧ i = iD then some (killSlot slD) else SlotAt st t i := by
  have ht : tidD < st.timers.length := (List.getElem?_eq_some.mp h2).1
  have hi : iD < utD.store.length := (List.getElem?_eq_some.mp h3).1
  by_cases he : t = tidD
  · subst he
    simp only [SlotAt, delState_timers_self st s t iD utD slD ht, h2,
      Option.some_bind]
    by_cases hie : i = iD
    · subst hie
      rw [if_pos (by simp)]
      exact List.getElem?_set_self (by simpa using hi)
    · rw [if_neg (by tauto)]
      exact List.getElem?_set_ne (fun hx => hie hx.symm)
  · rw [if_neg (fun hc => he hc.1)]
    simp only [SlotAt, delState_timers_other st s tidD iD utD slD t
      (fun hx => he hx.symm)]

theorem tick_slotAt_self (st : UeState) (tidT : Nat) (utT : ue_timer)
    (now : Nat) (h2 : st.timers[tidT]? = some utT) (i : Nat) :
    SlotAt (tickState st tidT utT now) tidT i =
      if utT.head ≤ i ∧ i < utT.head + (tickSweep st utT now).stepped then
        (utT.store[i]?).map killSlot
      else utT.store[i]? := by
  have ht : tidT < st.timers.length := (List.getElem?_eq_some.mp h2).1
  simp only [SlotAt, tickState_timers_self st tidT utT now ht, Option.some_bind]
  simpa only [tickSweep] using
    sweptStore_get utT.timeout now st.index utT.store utT.head i

theorem tick_slotAt_other (st : UeState) (tidT : Nat) (utT : ue_timer)
    (now t i : Nat) (h : tidT ≠ t) :
    SlotAt (tickState st tidT utT now) t i = SlotAt st t i := by
  simp only [SlotAt, tickState_timers_other st tidT utT now t h]

/-! ### Fired-list membership -/

theorem sweepList_fired_intro (T now : Nat) (l : List Slot) :
    ∀ idx (j : Nat) (sl : Slot), j < (sweepList T now idx l).stepped →
      l[j]? = some sl → sl.live = true →
      sl.seq ∈ (sweepList T now idx l).fired := by
  induction l with
  | nil => intro idx j sl hj; simp [sweepList] at hj
  | cons x rest ih =>
    intro idx j sl hj hsl hl
    by_cases hd : x.birth + T ≤ now
    · by_cases hx : x.live = true
      · rw [sweepList_cons_live T now idx x rest hd hx] at hj ⊢
        cases j with
        | zero =>
          simp only [List.getElem?_cons_zero, Option.some.injEq] at hsl
          subst hsl
          exact List.mem_cons_self _ _
        | succ j =>
          simp only [List.getElem?_cons_succ] at hsl
          dsimp only at hj ⊢
          exact List.mem_cons_of_mem _
            (ih (indexRemove idx x.seq) j sl (by omega) hsl hl)
      · simp only [Bool.not_eq_true] at hx
        rw [sweepList_cons_dead T now idx x rest hd hx] at hj ⊢
        cases j with
        | zero =>
          simp only [List.getElem?_cons_zero, Option.some.injEq] at hsl
          subst hsl
          rw [hx] at hl
          cases hl
        | succ j =>
          simp only [List.getElem?_cons_succ] at hsl
          dsimp only at hj ⊢
          exact ih idx j sl (by omega) hsl hl
    · rw [sweepList_cons_stop T now idx x rest hd] at hj
      simp at hj

theorem sweepList_fired_elim (T now : Nat) (l : List Slot) :
    ∀ idx (q : Nat), q ∈ (sweepList T now idx l).fired →
      ∃ (j : Nat) (sl : Slot), j < (sweepList T now idx l).stepped ∧
        l[j]? = some sl ∧ sl.live = true ∧ sl.seq = q := by
  induction l with
  | nil => intro idx q hq; simp [sweepList] at hq
  | cons x rest ih =>
    intro idx q hq
    by_cases hd : x.birth + T ≤ now
    · by_cases hx : x.live = true
      · rw [sweepList_cons_live T now idx x rest hd hx] at hq ⊢
        dsimp only at hq ⊢
        rcases List.mem_cons.mp hq with he | hm
        · exact ⟨0, x, by omega, by simp, hx, he.symm⟩
        · rcases ih (indexRemove idx x.seq) q hm with ⟨j, sl, hj, hsl, hl, hs⟩
          exact ⟨j + 1, sl, by omega, by simpa using hsl, hl, hs⟩
      · simp only [Bool.not_eq_true] at hx
        rw [sweepList_cons_dead T now idx x rest hd hx] at hq ⊢
        dsimp only at hq ⊢
        rcases ih idx q hq with ⟨j, sl, hj, hsl, hl, hs⟩
        exact ⟨j + 1, sl, by omega, by simpa using hsl, hl, hs⟩
    · rw [sweepList_cons_stop T now idx x rest hd] at hq
      simp at hq

theorem expiredTimesFor_map (s tid now : Nat) (l : List Nat) :
    expiredTimesFor s (l.map fun q => UeEvent.expired tid q now) =
      List.replicate (l.count s) now := by
  induction l with
  | nil => simp [expiredTimesFor]
  | cons q rest ih =>
    by_cases hq : q = s
    · have hcons : expiredTimesFor s (UeEvent.expired tid q now ::
          rest.map fun q' => UeEvent.expired tid q' now) =
          now :: expiredTimesFor s (rest.map fun q' => UeEvent.expired tid q' now) := by
        simp [expiredTimesFor, List.filterMap_cons, hq]
      rw [List.map_cons, hcons, ih, List.count_cons]
      simp [hq, List.replicate_succ]
    · have hcons : expiredTimesFor s (UeEvent.expired tid q now ::
          rest.map fun q' => UeEvent.expired tid q' now) =
          expiredTimesFor s (rest.map fun q' => UeEvent.expired tid q' now) := by
        simp [expiredTimesFor, List.filterMap_cons, hq]
      rw [List.map_cons, hcons, ih, List.count_cons]
      simp [Ne.symm hq, hq]

theorem expiredTimesFor_append (s : Nat) (a b : List UeEvent) :
    expiredTimesFor s (a ++ b) = expiredTimesFor s a ++ expiredTimesFor s b := by
  simp [expiredTimesFor, List.filterMap_append]

theorem expiredTimesFor_added (s tid q now : Nat) :
    expiredTimesFor s [UeEvent.added tid q now] = [] := by
  simp [expiredTimesFor]

theorem expiredTimesFor_delLive (s tid q : Nat) :
    expiredTimesFor s [UeEvent.delLive tid q] = [] := by
  simp [expiredTimesFor]

/-! ### Invariant preservation -/

theorem killSlot_seq (sl : Slot) : (killSlot sl).seq = sl.seq := rfl

theorem killSlot_birth (sl : Slot) : (killSlot sl).birth = sl.birth := rfl

theorem killSlot_live (sl : Slot) : (killSlot sl).live = false := rfl

theorem create_Inv (st : UeState) (t0 sz : Nat) (h : Inv st) :
    Inv ((ue_timer_create st t0 sz).1) := by
  have hidx : ((ue_timer_create st t0 sz).1).index = st.index := rfl
  have hls : ((ue_timer_create st t0 sz).1).lastSeq = st.lastSeq := rfl
  constructor
  · intro e he
    rw [hidx] at he
    rcases h.idxOk e he with ⟨sl, hsl, hseq, hlive⟩
    exact ⟨sl, by rw [create_slotAt]; exact hsl, hseq, hlive⟩
  · intro t1 i1 t2 i2 sl1 sl2 h1 h2 hseq
    rw [create_slotAt] at h1 h2
    exact h.seqInj t1 i1 t2 i2 sl1 sl2 h1 h2 hseq
  · intro t i sl h1
    rw [create_slotAt] at h1
    rw [hls]
    exact h.seqBound t i sl h1
  · intro t ut hut
    rcases create_timers_get st t0 sz t ut hut with hold | ⟨-, rfl⟩
    · exact h.headOk t ut hold
    · simp
  · intro t ut hut
    rcases create_timers_get st t0 sz t ut hut with hold | ⟨-, rfl⟩
    · exact h.prefixDead t ut hold
    · intro i sl hi
      simp at hi
  · intro t ut hut
    rcases create_timers_get st t0 sz t ut hut with hold | ⟨-, rfl⟩
    · exact h.birthMono t ut hold
    · intro i j sli slj hij h1
      simp at h1

theorem create_TB (st : UeState) (t0 sz c : Nat) (htb : TimeBound st c) :
    TimeBound ((ue_timer_create st t0 sz).1) c := by
  intro t i sl hsl
  rw [create_slotAt] at hsl
  exact htb t i sl hsl

theorem add_Inv (st : UeState) (tid : Nat) (ut : ue_timer)
    (pl : Option (List Nat)) (now c : Nat) (h : Inv st) (htb : TimeBound st c)
    (hc : c ≤ now) (hw : st.lastSeq + 1 < 2 ^ 32)
    (hut : st.timers[tid]? = some ut) :
    Inv (addState st tid ut pl now) := by
  have ht : tid < st.timers.length := (List.getElem?_eq_some.mp hut).1
  have halloc : allocSeq st.lastSeq = st.lastSeq + 1 := allocSeq_of_lt _ hw
  have hls : (addState st tid ut pl now).lastSeq = st.lastSeq + 1 := by
    simp [addState, halloc]
  have hnewslot : SlotAt (addState st tid ut pl now) tid ut.store.length =
      some ⟨allocSeq st.lastSeq, now, payloadBytes ut.session_size pl, true⟩ := by
    rw [add_slotAt st tid ut pl now hut, if_pos ⟨rfl, rfl⟩]
  constructor
  · intro e he
    have hidx : (addState st tid ut pl now).index =
        (allocSeq st.lastSeq, tid, ut.store.length) :: st.index := rfl
    rw [hidx] at he
    rcases List.mem_cons.mp he with he | he
    · subst he
      exact ⟨_, hnewslot, rfl, rfl⟩
    · rcases h.idxOk e he with ⟨sl, hsl, hseq, hlive⟩
      refine ⟨sl, ?_, hseq, hlive⟩
      rw [add_slotAt st tid ut pl now hut]
      rcases (SlotAt_eq_some _ _ _ _).mp hsl with ⟨ute, hute, hstoree⟩
      by_cases hcond : e.2.1 = tid ∧ e.2.2 = ut.store.length
      · exfalso
        rw [hcond.1] at hute
        rw [hut] at hute
        rcases Option.some_injective _ hute with rfl
        rw [hcond.2] at hstoree
        rw [List.getElem?_eq_none (le_refl _)] at hstoree
        cases hstoree
      · rw [if_neg hcond]
        exact hsl
  · intro t1 i1 t2 i2 sl1 sl2 h1 h2 hseq
    rw [add_slotAt st tid ut pl now hut] at h1 h2
    by_cases c1 : t1 = tid ∧ i1 = ut.store.length
    · rw [if_pos c1] at h1
      rcases Option.some_injective _ h1 with rfl
      by_cases c2 : t2 = tid ∧ i2 = ut.store.length
      · rw [if_pos c2] at h2
        rcases Option.some_injective _ h2 with rfl
        exact ⟨c1.1.trans c2.1.symm, c1.2.trans c2.2.symm⟩
      · rw [if_neg c2] at h2
        exfalso
        have := (h.seqBound t2 i2 sl2 h2).2
        simp only at hseq
        rw [halloc] at hseq
        omega
    · rw [if_neg c1] at h1
      by_cases c2 : t2 = tid ∧ i2 = ut.store.length
      · rw [if_pos c2] at h2
        rcases Option.some_injective _ h2 with rfl
        exfalso
        have := (h.seqBound t1 i1 sl1 h1).2
        simp only at hseq
        rw [halloc] at hseq
        omega
      · rw [if_neg c2] at h2
        exact h.seqInj t1 i1 t2 i2 sl1 sl2 h1 h2 hseq
  · intro t i sl h1
    rw [add_slotAt st tid ut pl now hut] at h1
    rw [hls]
    by_cases c1 : t = tid ∧ i = ut.store.length
    · rw [if_pos c1] at h1
      rcases Option.some_injective _ h1 with rfl
      simp only
      rw [halloc]
      omega
    · rw [if_neg c1] at h1
      have := h.seqBound t i sl h1
      omega
  · intro t ut' hut'
    by_cases he : t = tid
    · subst he
      rw [addState_timers_self st t ut pl now ht] at hut'
      rcases Option.some_injective _ hut' with rfl
      have := h.headOk t ut hut
      simp only [List.length_append, List.length_cons, List.length_nil]
      omega
    · rw [addState_timers_other st tid ut pl now t (fun hx => he hx.symm)] at hut'
      exact h.headOk t ut' hut'
  · intro t ut' hut'
    by_cases he : t = tid
    · subst he
      rw [addState_timers_self st t ut pl now ht] at hut'
      rcases Option.some_injective _ hut' with rfl
      intro i sl hi hsl
      simp only at hi hsl
      have hilen : i < ut.store.length := by
        have := h.headOk t ut hut
        omega
      rw [List.getElem?_append_left hilen] at hsl
      exact h.prefixDead t ut hut i sl hi hsl
    · rw [addState_timers_other st tid ut pl now t (fun hx => he hx.symm)] at hut'
      exact h.prefixDead t ut' hut'
  · intro t ut' hut'
    by_cases he : t = tid
    · subst he
      rw [addState_timers_self st t ut pl now ht] at hut'
      rcases Option.some_injective _ hut' with rfl
      intro i j sli slj hij hi hj
      simp only at hi hj
      rcases Nat.lt_or_ge j ut.store.length with hjl | hjg
      · rw [List.getElem?_append_left hjl] at hj
        rw [List.getElem?_append_left (by omega)] at hi
        exact h.birthMono t ut hut i j sli slj hij hi hj
      · rcases Nat.eq_or_lt_of_le hjg with hje | hjgt
        · rw [← hje] at hj
          rw [List.getElem?_concat_length] at hj
          rcases Option.some_injective _ hj with rfl
          simp only
          rcases Nat.lt_or_ge i ut.store.length with hil | hig
          · rw [List.getElem?_append_left hil] at hi
            have hbd := htb t i sli ((SlotAt_eq_some _ _ _ _).mpr ⟨ut, hut, hi⟩)
            omega
          · have hie : i = ut.store.length := by omega
            rw [hie, List.getElem?_concat_length] at hi
            rcases Option.some_injective _ hi with rfl
            simp
        · rw [List.getElem?_append_right (by omega)] at hj
          rw [List.getElem?_eq_none (by simp; omega)] at hj
          cases hj
    · rw [addState_timers_other st tid ut pl now t (fun hx => he hx.symm)] at hut'
      exact h.birthMono t ut' hut'

theorem add_TB (st : UeState) (tid : Nat) (ut : ue_timer)
    (pl : Option (List Nat)) (now c : Nat) (htb : TimeBound st c)
    (hc : c ≤ now) (hut : st.timers[tid]? = some ut) :
    TimeBound (addState st tid ut pl now) now := by
  intro t i sl hsl
  rw [add_slotAt st tid ut pl now hut] at hsl
  by_cases c1 : t = tid ∧ i = ut.store.length
  · rw [if_pos c1] at hsl
    rcases Option.some_injective _ hsl with rfl
    simp
  · rw [if_neg c1] at hsl
    exact le_trans (htb t i sl hsl) hc

theorem del_seq_eq (st : UeState) (s tidD iD : Nat) (utD : ue_timer)
    (slD : Slot) (h : Inv st) (hlook : indexLookup st.index s = some (tidD, iD))
    (h2 : st.timers[tidD]? = some utD) (h3 : utD.store[iD]? = some slD) :
    slD.seq = s := by
  have hmem : (s, tidD, iD) ∈ st.index := indexLookup_mem st.index s tidD iD hlook
  rcases h.idxOk (s, tidD, iD) hmem with ⟨sl', hsl', hseq', -⟩
  have : SlotAt st tidD iD = some slD := (SlotAt_eq_some _ _ _ _).mpr ⟨utD, h2, h3⟩
  rw [this] at hsl'
  rcases Option.some_injective _ hsl' with rfl
  exact hseq'

theorem del_Inv (st : UeState) (s tidD iD : Nat) (utD : ue_timer) (slD : Slot)
    (h : Inv st) (hlook : indexLookup st.index s = some (tidD, iD))
    (h2 : st.timers[tidD]? = some utD) (h3 : utD.store[iD]? = some slD) :
    Inv (delState st s tidD iD utD slD) := by
  have ht : tidD < st.timers.length := (List.getElem?_eq_some.mp h2).1
  have hi : iD < utD.store.length := (List.getElem?_eq_some.mp h3).1
  have hseqD : slD.seq = s := del_seq_eq st s tidD iD utD slD h hlook h2 h3
  have hslotD : SlotAt st tidD iD = some slD :=
    (SlotAt_eq_some _ _ _ _).mpr ⟨utD, h2, h3⟩
  have hidx : (delState st s tidD iD utD slD).index = indexRemove st.index s := rfl
  have hls : (delState st s tidD iD utD slD).lastSeq = st.lastSeq := rfl
  constructor
  · intro e he
    rw [hidx] at he
    rcases (indexRemove_mem st.index s e).mp he with ⟨hold, hne⟩
    rcases h.idxOk e hold with ⟨sl, hsl, hseq, hlive⟩
    refine ⟨sl, ?_, hseq, hlive⟩
    rw [del_slotAt st s tidD iD utD slD h2 h3]
    by_cases hcond : e.2.1 = tidD ∧ e.2.2 = iD
    · exfalso
      rw [hcond.1, hcond.2, hslotD] at hsl
      rcases Option.some_injective _ hsl with rfl
      exact hne (hseq ▸ hseqD)
    · rw [if_neg hcond]
      exact hsl
  · intro t1 i1 t2 i2 sl1 sl2 h1 h2' hseq
    rw [del_slotAt st s tidD iD utD slD h2 h3] at h1 h2'
    by_cases c1 : t1 = tidD ∧ i1 = iD
    · rw [if_pos c1] at h1
      rcases Option.some_injective _ h1 with rfl
      by_cases c2 : t2 = tidD ∧ i2 = iD
      · rw [if_pos c2] at h2'
        rcases Option.some_injective _ h2' with rfl
        exact ⟨c1.1.trans c2.1.symm, c1.2.trans c2.2.symm⟩
      · rw [if_neg c2] at h2'
        have := h.seqInj tidD iD t2 i2 slD sl2 hslotD h2' (by
          rw [← hseq]; exact (killSlot_seq slD).symm)
        exact ⟨c1.1.trans this.1, c1.2.trans this.2⟩
    · rw [if_neg c1] at h1
      by_cases c2 : t2 = tidD ∧ i2 = iD
      · rw [if_pos c2] at h2'
        rcases Option.some_injective _ h2' with rfl
        have := h.seqInj t1 i1 tidD iD sl1 slD h1 hslotD (by
          rw [hseq]; exact killSlot_seq slD)
        exact ⟨this.1.trans c2.1.symm, this.2.trans c2.2.symm⟩
      · rw [if_neg c2] at h2'
        exact h.seqInj t1 i1 t2 i2 sl1 sl2 h1 h2' hseq
  · intro t i sl h1
    rw [del_slotAt st s tidD iD utD slD h2 h3] at h1
    rw [hls]
    by_cases c1 : t = tidD ∧ i = iD
    · rw [if_pos c1] at h1
      rcases Option.some_injective _ h1 with rfl
      rw [killSlot_seq]
      exact h.seqBound tidD iD slD hslotD
    · rw [if_neg c1] at h1
      exact h.seqBound t i sl h1
  · intro t ut' hut'
    by_cases he : t = tidD
    · subst he
      rw [delState_timers_self st s t iD utD slD ht] at hut'
      rcases Option.some_injective _ hut' with rfl
      have := h.headOk t utD h2
      simpa using this
    · rw [delState_timers_other st s tidD iD utD slD t (fun hx => he hx.symm)] at hut'
      exact h.headOk t ut' hut'
  · intro t ut' hut'
    by_cases he : t = tidD
    · subst he
      rw [delState_timers_self st s t iD utD slD ht] at hut'
      rcases Option.some_injective _ hut' with rfl
      intro i sl hih hsl
      simp only at hih hsl
      by_cases hie : i = iD
      · subst hie
        rw [List.getElem?_set_self (by simpa using hi)] at hsl
        rcases Option.some_injective _ hsl with rfl
        exact killSlot_live slD
      · rw [List.getElem?_set_ne (fun hx => hie hx.symm)] at hsl
        exact h.prefixDead t utD h2 i sl hih hsl
    · rw [delState_timers_other st s tidD iD utD slD t (fun hx => he hx.symm)] at hut'
      exact h.prefixDead t ut' hut'
  · intro t ut' hut'
    by_cases he : t = tidD
    · subst he
      rw [delState_timers_self st s t iD utD slD ht] at hut'
      rcases Option.some_injective _ hut' with rfl
      intro i j sli slj hij hsi hsj
      simp only at hsi hsj
      have hsi' : ∃ sli0, utD.store[i]? = some sli0 ∧ sli0.birth = sli.birth := by
        by_cases hie : i = iD
        · subst hie
          rw [List.getElem?_set_self (by simpa using hi)] at hsi
          rcases Option.some_injective _ hsi with rfl
          exact ⟨slD, h3, (killSlot_birth slD).symm⟩
        · rw [List.getElem?_set_ne (fun hx => hie hx.symm)] at hsi
          exact ⟨sli, hsi, rfl⟩
      have hsj' : ∃ slj0, utD.store[j]? = some slj0 ∧ slj0.birth = slj.birth := by
        by_cases hje : j = iD
        · subst hje
          rw [List.getElem?_set_self (by simpa using hi)] at hsj
          rcases Option.some_injective _ hsj with rfl
          exact ⟨slD, h3, (killSlot_birth slD).symm⟩
        · rw [List.getElem?_set_ne (fun hx => hje hx.symm)] at hsj
          exact ⟨slj, hsj, rfl⟩
      rcases hsi' with ⟨sli0, hsi0, hbi⟩
      rcases hsj' with ⟨slj0, hsj0, hbj⟩
      rw [← hbi, ← hbj]
      exact h.birthMono t utD h2 i j sli0 slj0 hij hsi0 hsj0
    · rw [delState_timers_other st s tidD iD utD slD t (fun hx => he hx.symm)] at hut'
      exact h.birthMono t ut' hut'

theorem del_TB (st : UeState) (s tidD iD : Nat) (utD : ue_timer) (slD : Slot)
    (c : Nat) (htb : TimeBound st c) (h2 : st.timers[tidD]? = some utD)
    (h3 : utD.store[iD]? = some slD) :
    TimeBound (delState st s tidD iD utD slD) c := by
  intro t i sl hsl
  rw [del_slotAt st s tidD iD utD slD h2 h3] at hsl
  by_cases c1 : t = tidD ∧ i = iD
  · rw [if_pos c1] at hsl
    rcases Option.some_injective _ hsl with rfl
    rw [killSlot_birth]
    exact htb tidD iD slD ((SlotAt_eq_some _ _ _ _).mpr ⟨utD, h2, h3⟩)
  · rw [if_neg c1] at hsl
    exact htb t i sl hsl

theorem tickSweep_eq (st : UeState) (ut : ue_timer) (now : Nat) :
    tickSweep st ut now =
      sweepList ut.timeout now st.index (ut.store.drop ut.head) := rfl

/-- Every slot of a swept timer state descends from a slot of the original
state with the same header sequence and timestamp; only liveness can drop. -/
theorem tick_slot_origin (st : UeState) (tidT now : Nat) (utT : ue_timer)
    (h2 : st.timers[tidT]? = some utT) (t i : Nat) (sl' : Slot)
    (hsl' : SlotAt (tickState st tidT utT now) t i = some sl') :
    ∃ sl0, SlotAt st t i = some sl0 ∧ sl0.seq = sl'.seq ∧
      sl0.birth = sl'.birth ∧ (sl'.live = true → sl0.live = true) := by
  by_cases het : t = tidT
  · subst het
    rw [tick_slotAt_self st t utT now h2] at hsl'
    by_cases hwin : utT.head ≤ i ∧ i < utT.head + (tickSweep st utT now).stepped
    · rw [if_pos hwin] at hsl'
      rcases Option.map_eq_some'.mp hsl' with ⟨x, hx, hkx⟩
      refine ⟨x, (SlotAt_eq_some _ _ _ _).mpr ⟨utT, h2, hx⟩, ?_, ?_, ?_⟩
      · rw [← hkx, killSlot_seq]
      · rw [← hkx, killSlot_birth]
      · intro hl
        rw [← hkx, killSlot_live] at hl
        cases hl
    · rw [if_neg hwin] at hsl'
      exact ⟨sl', (SlotAt_eq_some _ _ _ _).mpr ⟨utT, h2, hsl'⟩, rfl, rfl, fun hx => hx⟩
  · rw [tick_slotAt_other st tidT utT now t i (fun hx => het hx.symm)] at hsl'
    exact ⟨sl', hsl', rfl, rfl, fun hx => hx⟩

theorem tick_Inv (st : UeState) (tidT now : Nat) (utT : ue_timer)
    (h : Inv st) (h2 : st.timers[tidT]? = some utT) :
    Inv (tickState st tidT utT now) := by
  have ht : tidT < st.timers.length := (List.getElem?_eq_some.mp h2).1
  have hho := h.headOk tidT utT h2
  have hslen := sweepList_slots_length utT.timeout now (utT.store.drop utT.head)
    st.index
  have hstep := sweepList_stepped_le utT.timeout now (utT.store.drop utT.head)
    st.index
  constructor
  · intro e he
    have hidx : (tickState st tidT utT now).index = (tickSweep st utT now).idx := rfl
    rw [hidx, tickSweep_eq] at he
    rcases (sweepList_idx_mem utT.timeout now (utT.store.drop utT.head)
      st.index e).mp he with ⟨hold, hnf⟩
    rcases h.idxOk e hold with ⟨sl, hsl, hseq, hlive⟩
    by_cases het : e.2.1 = tidT
    · refine ⟨sl, ?_, hseq, hlive⟩
      rw [het]
      rw [tick_slotAt_self st tidT utT now h2]
      have hget : utT.store[e.2.2]? = some sl := by
        rcases (SlotAt_eq_some _ _ _ _).mp hsl with ⟨ut0, hut0, hst0⟩
        rw [het, h2] at hut0
        rcases Option.some_injective _ hut0 with rfl
        exact hst0
      by_cases hwin : utT.head ≤ e.2.2 ∧
          e.2.2 < utT.head + (tickSweep st utT now).stepped
      · exfalso
        have hdrop : (utT.store.drop utT.head)[e.2.2 - utT.head]? = some sl := by
          rw [List.getElem?_drop]
          have harith : utT.head + (e.2.2 - utT.head) = e.2.2 := by omega
          rw [harith]
          exact hget
        have hj : e.2.2 - utT.head <
            (sweepList utT.timeout now st.index (utT.store.drop utT.head)).stepped := by
          rw [tickSweep_eq] at hwin
          omega
        have hin := sweepList_fired_intro utT.timeout now (utT.store.drop utT.head)
          st.index (e.2.2 - utT.head) sl hj hdrop hlive
        exact hnf (hseq ▸ hin)
      · rw [if_neg hwin]
        exact hget
    · refine ⟨sl, ?_, hseq, hlive⟩
      rw [tick_slotAt_other st tidT utT now e.2.1 e.2.2 (fun hx => het hx.symm)]
      exact hsl
  · intro t1 i1 t2 i2 sl1 sl2 h1 h2' hseq
    rcases tick_slot_origin st tidT now utT h2 t1 i1 sl1 h1 with ⟨a1, ha1, hq1, -, -⟩
    rcases tick_slot_origin st tidT now utT h2 t2 i2 sl2 h2' with ⟨a2, ha2, hq2, -, -⟩
    exact h.seqInj t1 i1 t2 i2 a1 a2 ha1 ha2 (by rw [hq1, hq2, hseq])
  · intro t i sl h1
    rcases tick_slot_origin st tidT now utT h2 t i sl h1 with ⟨a, ha, hq, -, -⟩
    have hls : (tickState st tidT utT now).lastSeq = st.lastSeq := rfl
    rw [hls, ← hq]
    exact h.seqBound t i a ha
  · intro t ut' hut'
    by_cases he : t = tidT
    · subst he
      rw [tickState_timers_self st t utT now ht] at hut'
      rcases Option.some_injective _ hut' with rfl
      simp only [List.length_append, List.length_take]
      rw [tickSweep_eq]
      simp only [List.length_drop] at hslen hstep
      rw [hslen]
      omega
    · rw [tickState_timers_other st tidT utT now t (fun hx => he hx.symm)] at hut'
      exact h.headOk t ut' hut'
  · intro t ut' hut'
    by_cases he : t = tidT
    · subst he
      rw [tickState_timers_self st t utT now ht] at hut'
      rcases Option.some_injective _ hut' with rfl
      intro i sl hih hsl
      simp only at hih hsl
      rw [tickSweep_eq] at hih hsl
      have hget := sweptStore_get utT.timeout now st.index utT.store utT.head i
      rw [hget] at hsl
      by_cases hwin : utT.head ≤ i ∧
          i < utT.head + (sweepList utT.timeout now st.index
            (utT.store.drop utT.head)).stepped
      · rw [if_pos hwin] at hsl
        rcases Option.map_eq_some'.mp hsl with ⟨x, -, hkx⟩
        rw [← hkx]
        exact killSlot_live x
      · rw [if_neg hwin] at hsl
        have hihd : i < utT.head := by omega
        exact h.prefixDead t utT h2 i sl hihd hsl
    · rw [tickState_timers_other st tidT utT now t (fun hx => he hx.symm)] at hut'
      exact h.prefixDead t ut' hut'
  · intro t ut' hut'
    by_cases he : t = tidT
    · subst he
      rw [tickState_timers_self st t utT now ht] at hut'
      rcases Option.some_injective _ hut' with rfl
      intro i j sli slj hij hsi hsj
      simp only at hsi hsj
      rw [tickSweep_eq] at hsi hsj
      have hgeti := sweptStore_get utT.timeout now st.index utT.store utT.head i
      have hgetj := sweptStore_get utT.timeout now st.index utT.store utT.head j
      rw [hgeti] at hsi
      rw [hgetj] at hsj
      have hi' : ∃ sli0, utT.store[i]? = some sli0 ∧ sli0.birth = sli.birth := by
        by_cases hwin : utT.head ≤ i ∧
            i < utT.head + (sweepList utT.timeout now st.index
              (utT.store.drop utT.head)).stepped
        · rw [if_pos hwin] at hsi
          rcases Option.map_eq_some'.mp hsi with ⟨x, hx, hkx⟩
          exact ⟨x, hx, by rw [← hkx, killSlot_birth]⟩
        · rw [if_neg hwin] at hsi
          exact ⟨sli, hsi, rfl⟩
      have hj' : ∃ slj0, utT.store[j]? = some slj0 ∧ slj0.birth = slj.birth := by
        by_cases hwin : utT.head ≤ j ∧
            j < utT.head + (sweepList utT.timeout now st.index
              (utT.store.drop utT.head)).stepped
        · rw [if_pos hwin] at hsj
          rcases Option.map_eq_some'.mp hsj with ⟨x, hx, hkx⟩
          exact ⟨x, hx, by rw [← hkx, killSlot_birth]⟩
        · rw [if_neg hwin] at hsj
          exact ⟨slj, hsj, rfl⟩
      rcases hi' with ⟨sli0, hsi0, hbi⟩
      rcases hj' with ⟨slj0, hsj0, hbj⟩
      rw [← hbi, ← hbj]
      exact h.birthMono t utT h2 i j sli0 slj0 hij hsi0 hsj0
    · rw [tickState_timers_other st tidT utT now t (fun hx => he hx.symm)] at hut'
      exact h.birthMono t ut' hut'

theorem tick_TB (st : UeState) (tidT now : Nat) (utT : ue_timer) (c : Nat)
    (htb : TimeBound st c) (hc : c ≤ now)
    (h2 : st.timers[tidT]? = some utT) :
    TimeBound (tickState st tidT utT now) now := by
  intro t i sl hsl
  rcases tick_slot_origin st tidT now utT h2 t i sl hsl with ⟨a, ha, -, hb, -⟩
  rw [← hb]
  exact le_trans (htb t i a ha) hc

/-! ### Trace-level invariant carrying -/

/-- The clock after an operation: its timestamp if it carries one. -/
def newClock (c : Nat) (op : UeOp) : Nat := (opTime op).getD c

/-- The clock after a whole trace. -/
def lastClock (c : Nat) : List UeOp → Nat
  | [] => c
  | op :: rest => lastClock (newClock c op) rest

theorem opsFrom_append (a : List UeOp) :
    ∀ (c : Nat) (b : List UeOp), opsFrom c (a ++ b) ↔
      opsFrom c a ∧ opsFrom (lastClock c a) b := by
  induction a with
  | nil => intro c b; simp [opsFrom, lastClock]
  | cons op rest ih =>
    intro c b
    cases op with
    | create t0 sz =>
      simp only [List.cons_append, opsFrom, opTime, lastClock, newClock,
        Option.getD, List.append_eq]
      exact ih c b
    | add tid pl now =>
      simp only [List.cons_append, opsFrom, opTime, lastClock, newClock,
        Option.getD, List.append_eq]
      rw [ih now b]
      tauto
    | del s =>
      simp only [List.cons_append, opsFrom, opTime, lastClock, newClock,
        Option.getD, List.append_eq]
      exact ih c b
    | tick tid now =>
      simp only [List.cons_append, opsFrom, opTime, lastClock, newClock,
        Option.getD, List.append_eq]
      rw [ih now b]
      tauto

/-- Invariant and time bound carried across a whole trace (within the
32-bit add budget). -/
theorem execOps_Inv (ops : List UeOp) :
    ∀ (st : UeState) (c : Nat), Inv st → TimeBound st c → opsFrom c ops →
      st.lastSeq + numAddOps ops ≤ 2 ^ 32 - 1 →
      Inv (execOps st ops).1 ∧ TimeBound (execOps st ops).1 (lastClock c ops) := by
  induction ops with
  | nil => intro st c h htb _ _; exact ⟨h, htb⟩
  | cons op rest ih =>
    intro st c h htb hfrom hb
    have hfst : (execOps st (op :: rest)).1 = (execOps (stepOp st op).1 rest).1 := rfl
    rw [hfst]
    cases op with
    | create t0 sz =>
      have hstep : (stepOp st (UeOp.create t0 sz)).1 = (ue_timer_create st t0 sz).1 := rfl
      rw [hstep]
      have hcnt : numAddOps (UeOp.create t0 sz :: rest) = numAddOps rest := by
        simp [numAddOps]
      have hls : ((ue_timer_create st t0 sz).1).lastSeq = st.lastSeq := rfl
      exact ih _ c (create_Inv st t0 sz h) (create_TB st t0 sz c htb)
        (by exact hfrom) (by rw [hls]; omega)
    | add tid pl now =>
      rcases hfrom with ⟨hc, hrest⟩
      have hcnt : numAddOps (UeOp.add tid pl now :: rest) = numAddOps rest + 1 := by
        simp [numAddOps, Nat.add_comm]
      have hw : st.lastSeq + 1 < 2 ^ 32 := by
        rw [hcnt] at hb
        have hpow : (2 : Nat) ^ 32 - 1 < 2 ^ 32 := by norm_num
        omega
      rcases h2 : st.timers[tid]? with _ | ut
      · have hstep : (stepOp st (UeOp.add tid pl now)).1 = st := by
          simp [stepOp, ue_timer_add_none st tid pl now h2]
        rw [hstep]
        exact ih st now h (TimeBound.mono st c now htb hc) hrest
          (by rw [hcnt] at hb; omega)
      · have hstep : (stepOp st (UeOp.add tid pl now)).1 = addState st tid ut pl now := by
          simp [stepOp, ue_timer_add_eq st tid pl now ut h2]
        rw [hstep]
        have hls : (addState st tid ut pl now).lastSeq = st.lastSeq + 1 := by
          simp [addState, allocSeq_of_lt _ hw]
        exact ih _ now (add_Inv st tid ut pl now c h htb hc hw h2)
          (add_TB st tid ut pl now c htb hc h2) hrest
          (by rw [hls]; rw [hcnt] at hb; omega)
    | del s =>
      have hcnt : numAddOps (UeOp.del s :: rest) = numAddOps rest := by
        simp [numAddOps]
      rcases ue_timer_del_cases st s with hdel | ⟨tidD, iD, utD, slD, hlook, h2, h3, h4, hdel⟩
      · have hstep : (stepOp st (UeOp.del s)).1 = st := by
          simp [stepOp, hdel]
        rw [hstep]
        exact ih st c h htb hfrom (by omega)
      · have hstep : (stepOp st (UeOp.del s)).1 = delState st s tidD iD utD slD := by
          simp [stepOp, hdel]
        rw [hstep]
        have hls : (delState st s tidD iD utD slD).lastSeq = st.lastSeq := rfl
        exact ih _ c (del_Inv st s tidD iD utD slD h hlook h2 h3)
          (del_TB st s tidD iD utD slD c htb h2 h3) hfrom (by rw [hls]; omega)
    | tick tid now =>
      rcases hfrom with ⟨hc, hrest⟩
      have hcnt : numAddOps (UeOp.tick tid now :: rest) = numAddOps rest := by
        simp [numAddOps]
      rcases h2 : st.timers[tid]? with _ | ut
      · have hstep : (stepOp st (UeOp.tick tid now)).1 = st := by
          simp [stepOp, ue_timer_tick_none st tid now h2]
        rw [hstep]
        exact ih st now h (TimeBound.mono st c now htb hc) hrest (by omega)
      · have hstep : (stepOp st (UeOp.tick tid now)).1 = tickState st tid ut now := by
          simp [stepOp, ue_timer_tick_eq st tid now ut h2]
        rw [hstep]
        have hls : (tickState st tid ut now).lastSeq = st.lastSeq := rfl
        exact ih _ now (tick_Inv st tid now ut h h2)
          (tick_TB st tid now ut c htb hc h2) hrest (by rw [hls]; omega)

theorem opsFrom_cons (c : Nat) (op : UeOp) (rest : List UeOp)
    (h : opsFrom c (op :: rest)) :
    (∀ u, opTime op = some u → c ≤ u) ∧ opsFrom (newClock c op) rest := by
  cases op with
  | create t0 sz =>
    constructor
    · intro u hu
      cases hu
    · simpa [opsFrom, opTime, newClock] using h
  | add tid pl now =>
    rcases h with ⟨hc, hrest⟩
    refine ⟨?_, hrest⟩
    intro u hu
    cases hu
    exact hc
  | del s =>
    constructor
    · intro u hu
      cases hu
    · simpa [opsFrom, opTime, newClock] using h
  | tick tid now =>
    rcases h with ⟨hc, hrest⟩
    refine ⟨?_, hrest⟩
    intro u hu
    cases hu
    exact hc

theorem stepOp_Inv_TB (st : UeState) (op : UeOp) (c : Nat) (h : Inv st)
    (htb : TimeBound st c)
    (hw : ∀ tid pl now, op = UeOp.add tid pl now → st.lastSeq + 1 < 2 ^ 32)
    (htime : ∀ u, opTime op = some u → c ≤ u) :
    Inv (stepOp st op).1 ∧ TimeBound (stepOp st op).1 (newClock c op) := by
  cases op with
  | create t0 sz =>
    have hstep : (stepOp st (UeOp.create t0 sz)).1 = (ue_timer_create st t0 sz).1 := rfl
    rw [hstep]
    exact ⟨create_Inv st t0 sz h, create_TB st t0 sz c htb⟩
  | add tid pl now =>
    have hc : c ≤ now := htime now rfl
    have hw' : st.lastSeq + 1 < 2 ^ 32 := hw tid pl now rfl
    rcases h2 : st.timers[tid]? with _ | ut
    · have hstep : (stepOp st (UeOp.add tid pl now)).1 = st := by
        simp [stepOp, ue_timer_add_none st tid pl now h2]
      rw [hstep]
      exact ⟨h, TimeBound.mono st c now htb hc⟩
    · have hstep : (stepOp st (UeOp.add tid pl now)).1 = addState st tid ut pl now := by
        simp [stepOp, ue_timer_add_eq st tid pl now ut h2]
      rw [hstep]
      exact ⟨add_Inv st tid ut pl now c h htb hc hw' h2,
        add_TB st tid ut pl now c htb hc h2⟩
  | del s =>
    rcases ue_timer_del_cases st s with hdel | ⟨tidD, iD, utD, slD, hlook, h2, h3, h4, hdel⟩
    · have hstep : (stepOp st (UeOp.del s)).1 = st := by simp [stepOp, hdel]
      rw [hstep]
      exact ⟨h, htb⟩
    · have hstep : (stepOp st (UeOp.del s)).1 = delState st s tidD iD utD slD := by
        simp [stepOp, hdel]
      rw [hstep]
      exact ⟨del_Inv st s tidD iD utD slD h hlook h2 h3,
        del_TB st s tidD iD utD slD c htb h2 h3⟩
  | tick tid now =>
    have hc : c ≤ now := htime now rfl
    rcases h2 : st.timers[tid]? with _ | ut
    · have hstep : (stepOp st (UeOp.tick tid now)).1 = st := by
        simp [stepOp, ue_timer_tick_none st tid now h2]
      rw [hstep]
      exact ⟨h, TimeBound.mono st c now htb hc⟩
    · have hstep : (stepOp st (UeOp.tick tid now)).1 = tickState st tid ut now := by
        simp [stepOp, ue_timer_tick_eq st tid now ut h2]
      rw [hstep]
      exact ⟨tick_Inv st tid now ut h h2, tick_TB st tid now ut c htb hc h2⟩

theorem stepOp_lastSeq_cases (st : UeState) (op : UeOp) :
    (stepOp st op).1.lastSeq = st.lastSeq ∨
    ((stepOp st op).1.lastSeq = allocSeq st.lastSeq ∧
      ∃ t p n, op = UeOp.add t p n) := by
  cases op with
  | create t0 sz => exact Or.inl rfl
  | add tid pl now =>
    rcases h2 : st.timers[tid]? with _ | ut
    · left
      simp [stepOp, ue_timer_add_none st tid pl now h2]
    · right
      refine ⟨?_, tid, pl, now, rfl⟩
      simp [stepOp, ue_timer_add_eq st tid pl now ut h2, addState]
  | del s =>
    rcases ue_timer_del_cases st s with hdel | ⟨tidD, iD, utD, slD, -, -, -, -, hdel⟩
    · left; simp [stepOp, hdel]
    · left; simp [stepOp, hdel, delState]
  | tick tid now =>
    rcases h2 : st.timers[tid]? with _ | ut
    · left; simp [stepOp, ue_timer_tick_none st tid now h2]
    · left; simp [stepOp, ue_timer_tick_eq st tid now ut h2, tickState]

theorem numAddOps_cons (op : UeOp) (rest : List UeOp) :
    numAddOps rest ≤ numAddOps (op :: rest) ∧
    numAddOps (op :: rest) ≤ numAddOps rest + 1 := by
  cases op <;> simp [numAddOps, List.countP_cons] <;> omega

theorem numAddOps_cons_add (tid : Nat) (pl : Option (List Nat)) (now : Nat)
    (rest : List UeOp) :
    numAddOps (UeOp.add tid pl now :: rest) = numAddOps rest + 1 := by
  simp [numAddOps, List.countP_cons]

theorem indexLookup_remove_none (idx : Index) (s q : Nat)
    (h : indexLookup idx s = none) :
    indexLookup (indexRemove idx q) s = none := by
  rw [indexLookup_eq_none_iff] at h ⊢
  intro e he
  exact h e ((indexRemove_mem idx q e).mp he).1

theorem indexLookup_sweep_none (T now : Nat) (idx : Index) (l : List Slot)
    (s : Nat) (h : indexLookup idx s = none) :
    indexLookup (sweepList T now idx l).idx s = none := by
  rw [indexLookup_eq_none_iff] at h ⊢
  intro e he
  exact h e ((sweepList_idx_mem T now l idx e).mp he).1

/-! ### Dead sessions stay dead -/

/-- One operation can neither fire the timeout callback for an already
tombstoned sequence nor re-introduce it into the Global Sequence Index. -/
theorem dead_step (st : UeState) (op : UeOp) (s tid sIdx : Nat) (sl : Slot)
    (hInv : Inv st)
    (hw : ∀ t p n, op = UeOp.add t p n → st.lastSeq + 1 < 2 ^ 32)
    (hsle : s ≤ st.lastSeq)
    (hslot : SlotAt st tid sIdx = some sl) (hseq : sl.seq = s)
    (hdead : sl.live = false)
    (hidxn : indexLookup st.index s = none) :
    expiredTimesFor s (stepOp st op).2 = [] ∧
    indexLookup (stepOp st op).1.index s = none := by
  cases op with
  | create t0 sz => exact ⟨rfl, hidxn⟩
  | add tidA pl now =>
    rcases h2 : st.timers[tidA]? with _ | utA
    · have hstep : stepOp st (UeOp.add tidA pl now) = (st, []) := by
        simp [stepOp, ue_timer_add_none st tidA pl now h2]
      rw [hstep]
      exact ⟨rfl, hidxn⟩
    · have hw' := hw tidA pl now rfl
      have halloc : allocSeq st.lastSeq = st.lastSeq + 1 := allocSeq_of_lt _ hw'
      have hstep : stepOp st (UeOp.add tidA pl now) =
          (addState st tidA utA pl now,
           [UeEvent.added tidA (allocSeq st.lastSeq) now]) := by
        simp [stepOp, ue_timer_add_eq st tidA pl now utA h2]
      rw [hstep]
      refine ⟨expiredTimesFor_added s tidA (allocSeq st.lastSeq) now, ?_⟩
      have hidx' : (addState st tidA utA pl now).index =
          (allocSeq st.lastSeq, tidA, utA.store.length) :: st.index := rfl
      rw [hidx']
      have hne : ¬ (allocSeq st.lastSeq = s) := by
        rw [halloc]
        omega
      simp [indexLookup, hne, hidxn]
  | del q =>
    rcases ue_timer_del_cases st q with hdel | ⟨tidD, iD, utD, slD, hlook, h2, h3, h4, hdel⟩
    · have hstep : stepOp st (UeOp.del q) = (st, []) := by
        simp [stepOp, hdel]
      rw [hstep]
      exact ⟨rfl, hidxn⟩
    · have hstep : stepOp st (UeOp.del q) =
          (delState st q tidD iD utD slD, [UeEvent.delLive tidD q]) := by
        simp [stepOp, hdel]
      rw [hstep]
      exact ⟨expiredTimesFor_delLive s tidD q,
        indexLookup_remove_none st.index s q hidxn⟩
  | tick tidT now =>
    rcases h2 : st.timers[tidT]? with _ | utT
    · have hstep : stepOp st (UeOp.tick tidT now) = (st, []) := by
        simp [stepOp, ue_timer_tick_none st tidT now h2]
      rw [hstep]
      exact ⟨rfl, hidxn⟩
    · have hstep : stepOp st (UeOp.tick tidT now) =
          (tickState st tidT utT now,
           (tickSweep st utT now).fired.map fun q' => UeEvent.expired tidT q' now) := by
        simp [stepOp, ue_timer_tick_eq st tidT now utT h2]
      rw [hstep]
      have hnotin : s ∉ (tickSweep st utT now).fired := by
        intro hin
        rw [tickSweep_eq] at hin
        rcases sweepList_fired_elim utT.timeout now (utT.store.drop utT.head)
          st.index s hin with ⟨j, slf, hj, hjget, hjlive, hjseq⟩
        have hslotf : SlotAt st tidT (utT.head + j) = some slf := by
          rw [SlotAt_eq_some]
          refine ⟨utT, h2, ?_⟩
          rw [← List.getElem?_drop]
          exact hjget
        rcases hInv.seqInj tidT (utT.head + j) tid sIdx slf sl hslotf hslot
          (by rw [hjseq, hseq]) with ⟨ht', hi'⟩
        rw [ht', hi', hslot] at hslotf
        rcases Option.some_injective _ hslotf with rfl
        rw [hdead] at hjlive
        cases hjlive
      constructor
      · rw [expiredTimesFor_map]
        rw [List.count_eq_zero.mpr hnotin]
        rfl
      · have hidx' : (tickState st tidT utT now).index = (tickSweep st utT now).idx := rfl
        rw [hidx', tickSweep_eq]
        exact indexLookup_sweep_none _ _ _ _ _ hidxn

/-- Once a sequence's slot is tombstoned and its index entry gone, no later
trace ever fires its callback or re-registers it. -/
theorem dead_stable (s tid sIdx : Nat) (ops : List UeOp) :
    ∀ (st : UeState) (c : Nat), Inv st → TimeBound st c → opsFrom c ops →
      st.lastSeq + numAddOps ops ≤ 2 ^ 32 - 1 → s ≤ st.lastSeq →
      ∀ sl : Slot, SlotAt st tid sIdx = some sl → sl.seq = s → sl.live = false →
      indexLookup st.index s = none →
      expiredTimesFor s (execOps st ops).2 = [] ∧
      indexLookup (execOps st ops).1.index s = none := by
  induction ops with
  | nil =>
    intro st c hInv htb hfrom hb hsle sl hslot hseq hdead hidxn
    exact ⟨rfl, hidxn⟩
  | cons op rest ih =>
    intro st c hInv htb hfrom hb hsle sl hslot hseq hdead hidxn
    have hw : ∀ t p n, op = UeOp.add t p n → st.lastSeq + 1 < 2 ^ 32 := by
      intro t p n heq
      subst heq
      rw [numAddOps_cons_add] at hb
      have hpow : (2 : Nat) ^ 32 - 1 < 2 ^ 32 := by norm_num
      omega
    rcases opsFrom_cons c op rest hfrom with ⟨htime, hrest⟩
    rcases stepOp_Inv_TB st op c hInv htb hw htime with ⟨hInv', htb'⟩
    have hbudget' : (stepOp st op).1.lastSeq + numAddOps rest ≤ 2 ^ 32 - 1 := by
      rcases stepOp_lastSeq_cases st op with hls | ⟨hls, t', p', n', heq⟩
      · rw [hls]
        have := (numAddOps_cons op rest).1
        omega
      · subst heq
        rw [hls, allocSeq_of_lt _ (hw t' p' n' rfl)]
        rw [numAddOps_cons_add] at hb
        omega
    have hsle' : s ≤ (stepOp st op).1.lastSeq := by
      rcases stepOp_lastSeq_cases st op with hls | ⟨hls, t', p', n', heq⟩
      · omega
      · subst heq
        rw [hls, allocSeq_of_lt _ (hw t' p' n' rfl)]
        omega
    rcases stepOp_slotAt st op tid sIdx sl hslot with
      ⟨sl', hslot', hseq', -, -, hlive'⟩
    have hdead' : sl'.live = false := by
      by_contra hcon
      simp only [Bool.not_eq_false] at hcon
      have := hlive' hcon
      rw [this] at hdead
      cases hdead
    rcases dead_step st op s tid sIdx sl hInv hw hsle hslot hseq hdead hidxn with
      ⟨hstepev, hstepidx⟩
    rcases ih (stepOp st op).1 (newClock c op) hInv' htb' hrest hbudget' hsle' sl'
      hslot' (by rw [hseq', hseq]) hdead' hstepidx with ⟨hrestev, hrestidx⟩
    have hsnd : (execOps st (op :: rest)).2 =
        (stepOp st op).2 ++ (execOps (stepOp st op).1 rest).2 := rfl
    have hfst : (execOps st (op :: rest)).1 = (execOps (stepOp st op).1 rest).1 := rfl
    rw [hsnd, hfst, expiredTimesFor_append, hstepev, hrestev]
    exact ⟨rfl, hrestidx⟩

/-- A live slot whose sequence is unique in the scanned suffix fires exactly
once during a sweep that reaches it. -/
theorem sweepList_fired_count (T now : Nat) (l : List Slot) :
    ∀ idx (j : Nat) (sl : Slot), j < (sweepList T now idx l).stepped →
      l[j]? = some sl → sl.live = true →
      (∀ (j' : Nat) (sl' : Slot), l[j']? = some sl' → sl'.seq = sl.seq → j' = j) →
      (sweepList T now idx l).fired.count sl.seq = 1 := by
  induction l with
  | nil => intro idx j sl hj; simp [sweepList] at hj
  | cons x rest ih =>
    intro idx j sl hj hsl hl huniq
    by_cases hd : x.birth + T ≤ now
    · by_cases hx : x.live = true
      · rw [sweepList_cons_live T now idx x rest hd hx] at hj ⊢
        dsimp only at hj ⊢
        cases j with
        | zero =>
          simp only [List.getElem?_cons_zero, Option.some.injEq] at hsl
          subst hsl
          rw [List.count_cons]
          simp only [beq_self_eq_true, if_true]
          have hzero : (sweepList T now (indexRemove idx x.seq) rest).fired.count
              x.seq = 0 := by
            rw [List.count_eq_zero]
            intro hmem
            rcases sweepList_fired_elim T now rest (indexRemove idx x.seq)
              x.seq hmem with ⟨j', sl', -, hget', -, hseq'⟩
            have := huniq (j' + 1) sl' (by simpa using hget') hseq'
            cases this
          omega
        | succ j =>
          simp only [List.getElem?_cons_succ] at hsl
          have hne : ¬ (sl.seq = x.seq) := by
            intro hcon
            have := huniq 0 x (by simp) hcon.symm
            cases this
          rw [List.count_cons]
          have hbeq : (x.seq == sl.seq) = false := by
            rw [beq_eq_false_iff_ne]
            exact fun hcon => hne hcon.symm
          rw [hbeq]
          simp only [Bool.false_eq_true, if_false, Nat.add_zero]
          exact ih (indexRemove idx x.seq) j sl (by omega) hsl hl
            (fun j' sl' hg hs => by
              have := huniq (j' + 1) sl' (by simpa using hg) hs
              omega)
      · simp only [Bool.not_eq_true] at hx
        rw [sweepList_cons_dead T now idx x rest hd hx] at hj ⊢
        dsimp only at hj ⊢
        cases j with
        | zero =>
          simp only [List.getElem?_cons_zero, Option.some.injEq] at hsl
          subst hsl
          rw [hx] at hl
          cases hl
        | succ j =>
          simp only [List.getElem?_cons_succ] at hsl
          exact ih idx j sl (by omega) hsl hl
            (fun j' sl' hg hs => by
              have := huniq (j' + 1) sl' (by simpa using hg) hs
              omega)
    · rw [sweepList_cons_stop T now idx x rest hd] at hj
      simp at hj

/-- Every operation preserves a timer's configured timeout and session size. -/
theorem stepOp_timeout (st : UeState) (op : UeOp) (t : Nat) (ut : ue_timer)
    (h : st.timers[t]? = some ut) :
    ∃ ut', (stepOp st op).1.timers[t]? = some ut' ∧
      ut'.timeout = ut.timeout ∧ ut'.session_size = ut.session_size := by
  have ht : t < st.timers.length := (List.getElem?_eq_some.mp h).1
  cases op with
  | create t0 sz =>
    refine ⟨ut, ?_, rfl, rfl⟩
    have hstep : (stepOp st (UeOp.create t0 sz)).1 = (ue_timer_create st t0 sz).1 := rfl
    rw [hstep]
    simp only [ue_timer_create]
    rw [List.getElem?_append_left ht]
    exact h
  | add tid pl now =>
    rcases h2 : st.timers[tid]? with _ | utA
    · refine ⟨ut, ?_, rfl, rfl⟩
      have hstep : (stepOp st (UeOp.add tid pl now)).1 = st := by
        simp [stepOp, ue_timer_add_none st tid pl now h2]
      rw [hstep]
      exact h
    · have hstep : (stepOp st (UeOp.add tid pl now)).1 = addState st tid utA pl now := by
        simp [stepOp, ue_timer_add_eq st tid pl now utA h2]
      rw [hstep]
      by_cases he : t = tid
      · subst he
        rcases Option.some_injective _ (h2.symm.trans h) with rfl
        refine ⟨_, addState_timers_self st t utA pl now ht, rfl, rfl⟩
      · refine ⟨ut, ?_, rfl, rfl⟩
        rw [addState_timers_other st tid utA pl now t (fun hx => he hx.symm)]
        exact h
  | del s =>
    rcases ue_timer_del_cases st s with hdel | ⟨tidD, iD, utD, slD, -, h2, h3, -, hdel⟩
    · refine ⟨ut, ?_, rfl, rfl⟩
      have hstep : (stepOp st (UeOp.del s)).1 = st := by simp [stepOp, hdel]
      rw [hstep]
      exact h
    · have hstep : (stepOp st (UeOp.del s)).1 = delState st s tidD iD utD slD := by
        simp [stepOp, hdel]
      rw [hstep]
      by_cases he : t = tidD
      · subst he
        rcases Option.some_injective _ (h2.symm.trans h) with rfl
        refine ⟨_, delState_timers_self st s t iD utD slD ht, rfl, rfl⟩
      · refine ⟨ut, ?_, rfl, rfl⟩
        rw [delState_timers_other st s tidD iD utD slD t (fun hx => he hx.symm)]
        exact h
  | tick tid now =>
    rcases h2 : st.timers[tid]? with _ | utT
    · refine ⟨ut, ?_, rfl, rfl⟩
      have hstep : (stepOp st (UeOp.tick tid now)).1 = st := by
        simp [stepOp, ue_timer_tick_none st tid now h2]
      rw [hstep]
      exact h
    · have hstep : (stepOp st (UeOp.tick tid now)).1 = tickState st tid utT now := by
        simp [stepOp, ue_timer_tick_eq st tid now utT h2]
      rw [hstep]
      by_cases he : t = tid
      · subst he
        rcases Option.some_injective _ (h2.symm.trans h) with rfl
        refine ⟨_, tickState_timers_self st t utT now ht, rfl, rfl⟩
      · refine ⟨ut, ?_, rfl, rfl⟩
        rw [tickState_timers_other st tid utT now t (fun hx => he hx.symm)]
        exact h

/-- Main temporal lemma: a live session with no deletion in the remaining
trace either never fires (and then no sweep of its timer reached its
deadline), or fires exactly once, at a time past its deadline, after which
its index entry is gone. -/
theorem live_main (s tid sIdx t0 T : Nat) (ops : List UeOp) :
    ∀ (st : UeState) (c : Nat), Inv st → TimeBound st c → opsFrom c ops →
      st.lastSeq + numAddOps ops ≤ 2 ^ 32 - 1 → s ≤ st.lastSeq →
      (∀ ut : ue_timer, st.timers[tid]? = some ut → ut.timeout = T) →
      UeOp.del s ∉ ops →
      ∀ sl : Slot, SlotAt st tid sIdx = some sl → sl.seq = s → sl.birth = t0 →
        sl.live = true →
      (expiredTimesFor s (execOps st ops).2 = [] ∧
        ∀ u, UeOp.tick tid u ∈ ops → u < t0 + T) ∨
      (∃ u', t0 + T ≤ u' ∧ expiredTimesFor s (execOps st ops).2 = [u'] ∧
        indexLookup (execOps st ops).1.index s = none) := by
  induction ops with
  | nil =>
    intro st c hInv htb hfrom hb hsle hTout hnodel sl hslot hseq hbirth hlive
    left
    refine ⟨rfl, ?_⟩
    intro u hu
    simp at hu
  | cons op rest ih =>
    intro st c hInv htb hfrom hb hsle hTout hnodel sl hslot hseq hbirth hlive
    have hw : ∀ t p n, op = UeOp.add t p n → st.lastSeq + 1 < 2 ^ 32 := by
      intro t p n heq
      subst heq
      rw [numAddOps_cons_add] at hb
      have hpow : (2 : Nat) ^ 32 - 1 < 2 ^ 32 := by norm_num
      omega
    rcases opsFrom_cons c op rest hfrom with ⟨htime, hrest⟩
    rcases stepOp_Inv_TB st op c hInv htb hw htime with ⟨hInv', htb'⟩
    have hbudget' : (stepOp st op).1.lastSeq + numAddOps rest ≤ 2 ^ 32 - 1 := by
      rcases stepOp_lastSeq_cases st op with hls | ⟨hls, t', p', n', heq⟩
      · rw [hls]
        have := (numAddOps_cons op rest).1
        omega
      · subst heq
        rw [hls, allocSeq_of_lt _ (hw t' p' n' rfl)]
        rw [numAddOps_cons_add] at hb
        omega
    have hsle' : s ≤ (stepOp st op).1.lastSeq := by
      rcases stepOp_lastSeq_cases st op with hls | ⟨hls, t', p', n', heq⟩
      · omega
      · subst heq
        rw [hls, allocSeq_of_lt _ (hw t' p' n' rfl)]
        omega
    have hnodel' : UeOp.del s ∉ rest := fun hc => hnodel (List.mem_cons_of_mem _ hc)
    have hopne : op ≠ UeOp.del s := fun hc => hnodel (by rw [hc]; exact List.mem_cons_self _ _)
    rcases (SlotAt_eq_some _ _ _ _).mp hslot with ⟨ut0, hut0, hst0⟩
    have hTout' : ∀ ut', (stepOp st op).1.timers[tid]? = some ut' → ut'.timeout = T := by
      intro ut' hut'
      rcases stepOp_timeout st op tid ut0 hut0 with ⟨ut1, hut1, htmo, -⟩
      rw [hut1] at hut'
      rcases Option.some_injective _ hut' with rfl
      rw [htmo]
      exact hTout ut0 hut0
    have hsnd : (execOps st (op :: rest)).2 =
        (stepOp st op).2 ++ (execOps (stepOp st op).1 rest).2 := rfl
    have hfst : (execOps st (op :: rest)).1 = (execOps (stepOp st op).1 rest).1 := rfl
    cases op with
    | create ct cz =>
      have hstepev : expiredTimesFor s (stepOp st (UeOp.create ct cz)).2 = [] := rfl
      have hslot' : SlotAt (stepOp st (UeOp.create ct cz)).1 tid sIdx = some sl := by
        have hstep1 : (stepOp st (UeOp.create ct cz)).1 = (ue_timer_create st ct cz).1 := rfl
        rw [hstep1, create_slotAt]
        exact hslot
      rcases ih (stepOp st (UeOp.create ct cz)).1 _ hInv' htb' hrest hbudget' hsle'
        hTout' hnodel' sl hslot' hseq hbirth hlive with ⟨hev, hticks⟩ | ⟨u', hu1, hu2, hu3⟩
      · left
        refine ⟨?_, ?_⟩
        · rw [hsnd, expiredTimesFor_append, hstepev, hev]
          rfl
        · intro u hu
          rcases List.mem_cons.mp hu with he | hm
          · cases he
          · exact hticks u hm
      · right
        refine ⟨u', hu1, ?_, ?_⟩
        · rw [hsnd, expiredTimesFor_append, hstepev, hu2]
          rfl
        · rw [hfst]
          exact hu3
    | add tidA pl nowA =>
      have hstepev : expiredTimesFor s (stepOp st (UeOp.add tidA pl nowA)).2 = [] := by
        rcases h2 : st.timers[tidA]? with _ | utA
        · have : (stepOp st (UeOp.add tidA pl nowA)).2 = [] := by
            simp [stepOp, ue_timer_add_none st tidA pl nowA h2]
          rw [this]
          rfl
        · have : (stepOp st (UeOp.add tidA pl nowA)).2 =
              [UeEvent.added tidA (allocSeq st.lastSeq) nowA] := by
            simp [stepOp, ue_timer_add_eq st tidA pl nowA utA h2]
          rw [this]
          exact expiredTimesFor_added _ _ _ _
      have hslot' : SlotAt (stepOp st (UeOp.add tidA pl nowA)).1 tid sIdx = some sl := by
        rcases h2 : st.timers[tidA]? with _ | utA
        · have hstep1 : (stepOp st (UeOp.add tidA pl nowA)).1 = st := by
            simp [stepOp, ue_timer_add_none st tidA pl nowA h2]
          rw [hstep1]
          exact hslot
        · have hstep1 : (stepOp st (UeOp.add tidA pl nowA)).1 = addState st tidA utA pl nowA := by
            simp [stepOp, ue_timer_add_eq st tidA pl nowA utA h2]
          rw [hstep1, add_slotAt st tidA utA pl nowA h2]
          by_cases hcond : tid = tidA ∧ sIdx = utA.store.length
          · exfalso
            rw [hcond.1, h2] at hut0
            rcases Option.some_injective _ hut0 with rfl
            have := (List.getElem?_eq_some.mp hst0).1
            omega
          · rw [if_neg hcond]
            exact hslot
      rcases ih (stepOp st (UeOp.add tidA pl nowA)).1 _ hInv' htb' hrest hbudget' hsle'
        hTout' hnodel' sl hslot' hseq hbirth hlive with ⟨hev, hticks⟩ | ⟨u', hu1, hu2, hu3⟩
      · left
        refine ⟨?_, ?_⟩
        · rw [hsnd, expiredTimesFor_append, hstepev, hev]
          rfl
        · intro u hu
          rcases List.mem_cons.mp hu with he | hm
          · cases he
          · exact hticks u hm
      · right
        refine ⟨u', hu1, ?_, ?_⟩
        · rw [hsnd, expiredTimesFor_append, hstepev, hu2]
          rfl
        · rw [hfst]
          exact hu3
    | del q =>
      have hq : ¬ (q = s) := by
        intro hcon
        exact hopne (by rw [hcon])
      have hstepfacts : expiredTimesFor s (stepOp st (UeOp.del q)).2 = [] ∧
          SlotAt (stepOp st (UeOp.del q)).1 tid sIdx = some sl := by
        rcases ue_timer_del_cases st q with hdel | ⟨tidD, iD, utD, slD, hlook, h2, h3, h4, hdel⟩
        · have hstep1 : stepOp st (UeOp.del q) = (st, []) := by simp [stepOp, hdel]
          rw [hstep1]
          exact ⟨rfl, hslot⟩
        · have hstep1 : stepOp st (UeOp.del q) =
              (delState st q tidD iD utD slD, [UeEvent.delLive tidD q]) := by
            simp [stepOp, hdel]
          rw [hstep1]
          refine ⟨expiredTimesFor_delLive _ _ _, ?_⟩
          have hseqD : slD.seq = q := del_seq_eq st q tidD iD utD slD hInv hlook h2 h3
          rw [del_slotAt st q tidD iD utD slD h2 h3]
          by_cases hcond : tid = tidD ∧ sIdx = iD
          · exfalso
            have hslotD : SlotAt st tidD iD = some slD :=
              (SlotAt_eq_some _ _ _ _).mpr ⟨utD, h2, h3⟩
            rw [← hcond.1, ← hcond.2, hslot] at hslotD
            rcases Option.some_injective _ hslotD with rfl
            exact hq (by rw [← hseqD, hseq])
          · rw [if_neg hcond]
            exact hslot
      rcases ih (stepOp st (UeOp.del q)).1 _ hInv' htb' hrest hbudget' hsle'
        hTout' hnodel' sl hstepfacts.2 hseq hbirth hlive with ⟨hev, hticks⟩ | ⟨u', hu1, hu2, hu3⟩
      · left
        refine ⟨?_, ?_⟩
        · rw [hsnd, expiredTimesFor_append, hstepfacts.1, hev]
          rfl
        · intro u hu
          rcases List.mem_cons.mp hu with he | hm
          · cases he
          · exact hticks u hm
      · right
        refine ⟨u', hu1, ?_, ?_⟩
        · rw [hsnd, expiredTimesFor_append, hstepfacts.1, hu2]
          rfl
        · rw [hfst]
          exact hu3
    | tick tidT nowT =>
      rcases h2 : st.timers[tidT]? with _ | utT
      · have hstep1 : stepOp st (UeOp.tick tidT nowT) = (st, []) := by
          simp [stepOp, ue_timer_tick_none st tidT nowT h2]
        have htidne : ¬ (tid = tidT) := by
          intro hcon
          rw [← hcon, hut0] at h2
          cases h2
        rcases ih (stepOp st (UeOp.tick tidT nowT)).1 _ hInv' htb' hrest hbudget' hsle'
          hTout' hnodel' sl (by rw [hstep1]; exact hslot) hseq hbirth hlive with
          ⟨hev, hticks⟩ | ⟨u', hu1, hu2, hu3⟩
        · left
          refine ⟨?_, ?_⟩
          · rw [hsnd, expiredTimesFor_append, hev]
            rw [hstep1]
            rfl
          · intro u hu
            rcases List.mem_cons.mp hu with he | hm
            · exfalso
              rcases UeOp.tick.injEq _ _ _ _ ▸ he with ⟨hcon, -⟩
              exact htidne hcon
            · exact hticks u hm
        · right
          refine ⟨u', hu1, ?_, ?_⟩
          · rw [hsnd, expiredTimesFor_append, hu2]
            rw [hstep1]
            rfl
          · rw [hfst]
            exact hu3
      · have hstep1 : stepOp st (UeOp.tick tidT nowT) =
            (tickState st tidT utT nowT,
             (tickSweep st utT nowT).fired.map fun q' => UeEvent.expired tidT q' nowT) := by
          simp [stepOp, ue_timer_tick_eq st tidT nowT utT h2]
        by_cases htid : tid = tidT
        · subst htid
          rcases Option.some_injective _ (h2.symm.trans hut0) with rfl
          have hTval : utT.timeout = T := hTout utT hut0
          have hhead : utT.head ≤ sIdx := by
            by_contra hcon
            push_neg at hcon
            have := hInv.prefixDead tid utT hut0 sIdx sl hcon hst0
            rw [this] at hlive
            cases hlive
          have hdropj : (utT.store.drop utT.head)[sIdx - utT.head]? = some sl := by
            rw [List.getElem?_drop]
            have harith : utT.head + (sIdx - utT.head) = sIdx := by omega
            rw [harith]
            exact hst0
          by_cases hnow : nowT < t0 + T
          · -- not yet due: the sweep cannot reach or fire this session
            have hnotwin : ¬ (sIdx - utT.head <
                (sweepList utT.timeout nowT st.index (utT.store.drop utT.head)).stepped) := by
              intro hcon
              rcases sweepList_due utT.timeout nowT (utT.store.drop utT.head)
                st.index (sIdx - utT.head) hcon with ⟨sl2, hsl2, hdue⟩
              rw [hdropj] at hsl2
              rcases Option.some_injective _ hsl2 with rfl
              rw [hbirth, hTval] at hdue
              omega
            have hnotin : s ∉ (tickSweep st utT nowT).fired := by
              intro hin
              rw [tickSweep_eq] at hin
              rcases sweepList_fired_elim utT.timeout nowT (utT.store.drop utT.head)
                st.index s hin with ⟨j', slf, hj', hget', hlive', hseq'⟩
              have hslotf : SlotAt st tid (utT.head + j') = some slf := by
                rw [SlotAt_eq_some]
                refine ⟨utT, hut0, ?_⟩
                rw [← List.getElem?_drop]
                exact hget'
              rcases hInv.seqInj tid (utT.head + j') tid sIdx slf sl hslotf hslot
                (by rw [hseq', hseq]) with ⟨-, hi'⟩
              omega
            have hstepev : expiredTimesFor s (stepOp st (UeOp.tick tid nowT)).2 = [] := by
              rw [hstep1]
              have : ((tickSweep st utT nowT).fired.map
                  fun q' => UeEvent.expired tid q' nowT) =
                  (tickSweep st utT nowT).fired.map fun q' => UeEvent.expired tid q' nowT := rfl
              rw [expiredTimesFor_map, List.count_eq_zero.mpr hnotin]
              rfl
            have hslot' : SlotAt (stepOp st (UeOp.tick tid nowT)).1 tid sIdx = some sl := by
              have : (stepOp st (UeOp.tick tid nowT)).1 = tickState st tid utT nowT := by
                rw [hstep1]
              rw [this, tick_slotAt_self st tid utT nowT h2]
              rw [if_neg (by rw [tickSweep_eq]; omega)]
              exact hst0
            rcases ih (stepOp st (UeOp.tick tid nowT)).1 _ hInv' htb' hrest hbudget' hsle'
              hTout' hnodel' sl hslot' hseq hbirth hlive with ⟨hev, hticks⟩ | ⟨u', hu1, hu2, hu3⟩
            · left
              refine ⟨?_, ?_⟩
              · rw [hsnd, expiredTimesFor_append, hstepev, hev]
                rfl
              · intro u hu
                rcases List.mem_cons.mp hu with he | hm
                · rcases UeOp.tick.injEq _ _ _ _ ▸ he with ⟨-, hu'⟩
                  omega
                · exact hticks u hm
            · right
              refine ⟨u', hu1, ?_, ?_⟩
              · rw [hsnd, expiredTimesFor_append, hstepev, hu2]
                rfl
              · rw [hfst]
                exact hu3
          · -- due: the sweep reaches the session and fires it exactly once
            push_neg at hnow
            have hjlen : sIdx - utT.head < (utT.store.drop utT.head).length := by
              have := (List.getElem?_eq_some.mp hdropj).1
              exact this
            have hstepped : sIdx - utT.head <
                (sweepList utT.timeout nowT st.index (utT.store.drop utT.head)).stepped := by
              rcases sweepList_stop utT.timeout nowT (utT.store.drop utT.head)
                st.index with hall | ⟨slstop, hgetstop, hnotdue⟩
              · omega
              · by_contra hcon
                push_neg at hcon
                have hstoploc : utT.store[utT.head +
                    (sweepList utT.timeout nowT st.index (utT.store.drop utT.head)).stepped]? =
                    some slstop := by
                  rw [← List.getElem?_drop]
                  exact hgetstop
                have hble := hInv.birthMono tid utT hut0
                  (utT.head + (sweepList utT.timeout nowT st.index
                    (utT.store.drop utT.head)).stepped) sIdx slstop sl
                  (by omega) hstoploc hst0
                rw [hbirth] at hble
                rw [hTval] at hnotdue
                omega
            have huniq : ∀ (j' : Nat) (sl' : Slot),
                (utT.store.drop utT.head)[j']? = some sl' → sl'.seq = sl.seq →
                j' = sIdx - utT.head := by
              intro j' sl' hg hs
              have hslotf : SlotAt st tid (utT.head + j') = some sl' := by
                rw [SlotAt_eq_some]
                refine ⟨utT, hut0, ?_⟩
                rw [← List.getElem?_drop]
                exact hg
              rcases hInv.seqInj tid (utT.head + j') tid sIdx sl' sl hslotf hslot hs
                with ⟨-, hi'⟩
              omega
            have hcount := sweepList_fired_count utT.timeout nowT
              (utT.store.drop utT.head) st.index (sIdx - utT.head) sl hstepped
              hdropj hlive huniq
            have hsin : sl.seq ∈ (sweepList utT.timeout nowT st.index
                (utT.store.drop utT.head)).fired :=
              sweepList_fired_intro utT.timeout nowT (utT.store.drop utT.head)
                st.index (sIdx - utT.head) sl hstepped hdropj hlive
            have hstepev : expiredTimesFor s (stepOp st (UeOp.tick tid nowT)).2 = [nowT] := by
              rw [hstep1]
              rw [expiredTimesFor_map]
              rw [tickSweep_eq, ← hseq, hcount]
              rfl
            have hslotdead : SlotAt (stepOp st (UeOp.tick tid nowT)).1 tid sIdx =
                some (killSlot sl) := by
              have hst : (stepOp st (UeOp.tick tid nowT)).1 = tickState st tid utT nowT := by
                rw [hstep1]
              rw [hst, tick_slotAt_self st tid utT nowT h2]
              rw [if_pos (by rw [tickSweep_eq]; omega)]
              rw [hst0]
              rfl
            have hidxnone : indexLookup (stepOp st (UeOp.tick tid nowT)).1.index s = none := by
              have hst : (stepOp st (UeOp.tick tid nowT)).1 = tickState st tid utT nowT := by
                rw [hstep1]
              rw [hst]
              have hidx' : (tickState st tid utT nowT).index = (tickSweep st utT nowT).idx := rfl
              rw [hidx', tickSweep_eq]
              rw [indexLookup_eq_none_iff]
              intro e he
              rcases (sweepList_idx_mem utT.timeout nowT (utT.store.drop utT.head)
                st.index e).mp he with ⟨-, hnf⟩
              intro hcon
              rw [hcon] at hnf
              exact hnf (hseq ▸ hsin)
            rcases dead_stable s tid sIdx rest (stepOp st (UeOp.tick tid nowT)).1 _
              hInv' htb' hrest hbudget' hsle' (killSlot sl) hslotdead
              (by rw [killSlot_seq]; exact hseq) (killSlot_live sl) hidxnone with
              ⟨hrestev, hrestidx⟩
            right
            refine ⟨nowT, by omega, ?_, ?_⟩
            · rw [hsnd, expiredTimesFor_append, hstepev, hrestev]
              rfl
            · rw [hfst]
              exact hrestidx
        · -- a sweep of a different timer cannot touch this session
          have hstepev : expiredTimesFor s (stepOp st (UeOp.tick tidT nowT)).2 = [] := by
            rw [hstep1]
            have hnotin : s ∉ (tickSweep st utT nowT).fired := by
              intro hin
              rw [tickSweep_eq] at hin
              rcases sweepList_fired_elim utT.timeout nowT (utT.store.drop utT.head)
                st.index s hin with ⟨j', slf, hj', hget', hlive', hseq'⟩
              have hslotf : SlotAt st tidT (utT.head + j') = some slf := by
                rw [SlotAt_eq_some]
                refine ⟨utT, h2, ?_⟩
                rw [← List.getElem?_drop]
                exact hget'
              rcases hInv.seqInj tidT (utT.head + j') tid sIdx slf sl hslotf hslot
                (by rw [hseq', hseq]) with ⟨ht', -⟩
              exact htid ht'.symm
            rw [expiredTimesFor_map, List.count_eq_zero.mpr hnotin]
            rfl
          have hslot' : SlotAt (stepOp st (UeOp.tick tidT nowT)).1 tid sIdx = some sl := by
            have hst : (stepOp st (UeOp.tick tidT nowT)).1 = tickState st tidT utT nowT := by
              rw [hstep1]
            rw [hst, tick_slotAt_other st tidT utT nowT tid sIdx (fun hx => htid hx.symm)]
            exact hslot
          rcases ih (stepOp st (UeOp.tick tidT nowT)).1 _ hInv' htb' hrest hbudget' hsle'
            hTout' hnodel' sl hslot' hseq hbirth hlive with ⟨hev, hticks⟩ | ⟨u', hu1, hu2, hu3⟩
          · left
            refine ⟨?_, ?_⟩
            · rw [hsnd, expiredTimesFor_append, hstepev, hev]
              rfl
            · intro u hu
              rcases List.mem_cons.mp hu with he | hm
              · exfalso
                rcases UeOp.tick.injEq _ _ _ _ ▸ he with ⟨hcon, -⟩
                exact htid hcon
              · exact hticks u hm
          · right
            refine ⟨u', hu1, ?_, ?_⟩
            · rw [hsnd, expiredTimesFor_append, hstepev, hu2]
              rfl
            · rw [hfst]
              exact hu3

theorem execOps_append (a : List UeOp) :
    ∀ (st : UeState) (b : List UeOp),
      execOps st (a ++ b) =
        ((execOps (execOps st a).1 b).1,
         (execOps st a).2 ++ (execOps (execOps st a).1 b).2) := by
  induction a with
  | nil => intro st b; simp [execOps]
  | cons op rest ih =>
    intro st b
    have h1 : execOps st ((op :: rest) ++ b) =
        ((execOps (stepOp st op).1 (rest ++ b)).1,
         (stepOp st op).2 ++ (execOps (stepOp st op).1 (rest ++ b)).2) := rfl
    have h2 : execOps st (op :: rest) =
        ((execOps (stepOp st op).1 rest).1,
         (stepOp st op).2 ++ (execOps (stepOp st op).1 rest).2) := rfl
    rw [h1, ih (stepOp st op).1 b, h2]
    simp [List.append_assoc]

theorem ue_timer_get_of_no_index (st : UeState) (q : Nat)
    (h : indexLookup st.index q = none) : ue_timer_get st q = none := by
  simp [ue_timer_get, h]

/-- No trace can fire a timeout callback for a sequence the allocator has
not yet handed out. -/
theorem execOps_expired_bound (ops : List UeOp) :
    ∀ (st : UeState) (c : Nat), Inv st → TimeBound st c → opsFrom c ops →
      st.lastSeq + numAddOps ops ≤ 2 ^ 32 - 1 →
      ∀ q, (execOps st ops).1.lastSeq < q →
        expiredTimesFor q (execOps st ops).2 = [] := by
  induction ops with
  | nil => intro st c _ _ _ _ q _; rfl
  | cons op rest ih =>
    intro st c hInv htb hfrom hb q hq
    have hw : ∀ t p n, op = UeOp.add t p n → st.lastSeq + 1 < 2 ^ 32 := by
      intro t p n heq
      subst heq
      rw [numAddOps_cons_add] at hb
      have hpow : (2 : Nat) ^ 32 - 1 < 2 ^ 32 := by norm_num
      omega
    rcases opsFrom_cons c op rest hfrom with ⟨htime, hrest⟩
    rcases stepOp_Inv_TB st op c hInv htb hw htime with ⟨hInv', htb'⟩
    have hbudget' : (stepOp st op).1.lastSeq + numAddOps rest ≤ 2 ^ 32 - 1 := by
      rcases stepOp_lastSeq_cases st op with hls | ⟨hls, t', p', n', heq⟩
      · rw [hls]
        have := (numAddOps_cons op rest).1
        omega
      · subst heq
        rw [hls, allocSeq_of_lt _ (hw t' p' n' rfl)]
        rw [numAddOps_cons_add] at hb
        omega
    have hmid : st.lastSeq ≤ (stepOp st op).1.lastSeq := by
      rcases stepOp_lastSeq_cases st op with hls | ⟨hls, t', p', n', heq⟩
      · omega
      · subst heq
        rw [hls, allocSeq_of_lt _ (hw t' p' n' rfl)]
        omega
    have hfin : (stepOp st op).1.lastSeq ≤ (execOps (stepOp st op).1 rest).1.lastSeq := by
      rcases execOps_seqs rest (stepOp st op).1 hbudget' with ⟨-, hle, -⟩
      exact hle
    have hfst : (execOps st (op :: rest)).1 = (execOps (stepOp st op).1 rest).1 := rfl
    rw [hfst] at hq
    have hstepev : expiredTimesFor q (stepOp st op).2 = [] := by
      cases op with
      | create ct cz => rfl
      | add tidA pl nowA =>
        rcases h2 : st.timers[tidA]? with _ | utA
        · have : (stepOp st (UeOp.add tidA pl nowA)).2 = [] := by
            simp [stepOp, ue_timer_add_none st tidA pl nowA h2]
          rw [this]
          rfl
        · have : (stepOp st (UeOp.add tidA pl nowA)).2 =
              [UeEvent.added tidA (allocSeq st.lastSeq) nowA] := by
            simp [stepOp, ue_timer_add_eq st tidA pl nowA utA h2]
          rw [this]
          exact expiredTimesFor_added _ _ _ _
      | del dq =>
        rcases ue_timer_del_cases st dq with hdel | ⟨tidD, iD, utD, slD, -, -, -, -, hdel⟩
        · have : stepOp st (UeOp.del dq) = (st, []) := by simp [stepOp, hdel]
          rw [this]
          rfl
        · have : stepOp st (UeOp.del dq) =
              (delState st dq tidD iD utD slD, [UeEvent.delLive tidD dq]) := by
            simp [stepOp, hdel]
          rw [this]
          exact expiredTimesFor_delLive _ _ _
      | tick tidT nowT =>
        rcases h2 : st.timers[tidT]? with _ | utT
        · have : stepOp st (UeOp.tick tidT nowT) = (st, []) := by
            simp [stepOp, ue_timer_tick_none st tidT nowT h2]
          rw [this]
          rfl
        · have : (stepOp st (UeOp.tick tidT nowT)).2 =
              (tickSweep st utT nowT).fired.map fun q' => UeEvent.expired tidT q' nowT := by
            simp [stepOp, ue_timer_tick_eq st tidT nowT utT h2]
          rw [this]
          have hnotin : q ∉ (tickSweep st utT nowT).fired := by
            intro hin
            rw [tickSweep_eq] at hin
            rcases sweepList_fired_elim utT.timeout nowT (utT.store.drop utT.head)
              st.index q hin with ⟨j', slf, -, hget', -, hseq'⟩
            have hslotf : SlotAt st tidT (utT.head + j') = some slf := by
              rw [SlotAt_eq_some]
              refine ⟨utT, h2, ?_⟩
              rw [← List.getElem?_drop]
              exact hget'
            have := (hInv.seqBound tidT (utT.head + j') slf hslotf).2
            rw [hseq'] at this
            omega
          rw [expiredTimesFor_map, List.count_eq_zero.mpr hnotin]
          rfl
    have hsnd : (execOps st (op :: rest)).2 =
        (stepOp st op).2 ++ (execOps (stepOp st op).1 rest).2 := rfl
    rw [hsnd, expiredTimesFor_append, hstepev]
    rw [ih (stepOp st op).1 (newClock c op) hInv' htb' hrest hbudget' q hq]
    rfl

/-! ### Claim C4 -/

/-- C4. A session added at time `t0` on a Timer Instance with timeout `T`
and never deleted fires its timeout callback exactly once — at a sweep time
at or after `t0 + T` — provided some sweep of its instance at or after the
deadline occurs; afterwards `get` on its sequence fails with NotFound (the
final state being arbitrary, this covers every observation point after the
invocation). -/
theorem ue_timer_expiry (pre post : List UeOp) (tid t0 : Nat)
    (pl : Option (List Nat)) (ut1 : ue_timer)
    (hops : opsFrom 0 (pre ++ UeOp.add tid pl t0 :: post))
    (hbudget : numAddOps (pre ++ UeOp.add tid pl t0 :: post) ≤ 2 ^ 32 - 1)
    (hut1 : (execOps initState pre).1.timers[tid]? = some ut1)
    (hnodel : UeOp.del ((execOps initState pre).1.lastSeq + 1) ∉ post)
    (htick : ∃ u, t0 + ut1.timeout ≤ u ∧ UeOp.tick tid u ∈ post) :
    ∃ u', t0 + ut1.timeout ≤ u' ∧
      expiredTimesFor ((execOps initState pre).1.lastSeq + 1)
        (execOps initState (pre ++ UeOp.add tid pl t0 :: post)).2 = [u'] ∧
      ue_timer_get (execOps initState (pre ++ UeOp.add tid pl t0 :: post)).1
        ((execOps initState pre).1.lastSeq + 1) = none := by
  have hcntapp : numAddOps (pre ++ UeOp.add tid pl t0 :: post) =
      numAddOps pre + (numAddOps post + 1) := by
    have h1 : numAddOps (pre ++ UeOp.add tid pl t0 :: post) =
        numAddOps pre + numAddOps (UeOp.add tid pl t0 :: post) := by
      simp [numAddOps, List.countP_append]
    rw [h1, numAddOps_cons_add]
  rcases (opsFrom_append pre 0 (UeOp.add tid pl t0 :: post)).mp hops with ⟨hpre, hmid⟩
  rcases hmid with ⟨hc1, hpost⟩
  have hbpre : initState.lastSeq + numAddOps pre ≤ 2 ^ 32 - 1 := by
    have : initState.lastSeq = 0 := rfl
    omega
  rcases execOps_Inv pre initState 0 Inv_initState (TimeBound_initState 0) hpre
    hbpre with ⟨hInv1, htb1⟩
  rcases execOps_seqs pre initState hbpre with ⟨-, -, hup1⟩
  have hup1' : (execOps initState pre).1.lastSeq ≤ numAddOps pre := by
    have : initState.lastSeq = 0 := rfl
    omega
  have hwrap : (execOps initState pre).1.lastSeq + 1 < 2 ^ 32 := by
    have hpow : (2 : Nat) ^ 32 - 1 < 2 ^ 32 := by norm_num
    omega
  have halloc : allocSeq (execOps initState pre).1.lastSeq =
      (execOps initState pre).1.lastSeq + 1 := allocSeq_of_lt _ hwrap
  have hstep : stepOp (execOps initState pre).1 (UeOp.add tid pl t0) =
      (addState (execOps initState pre).1 tid ut1 pl t0,
       [UeEvent.added tid (allocSeq (execOps initState pre).1.lastSeq) t0]) := by
    simp [stepOp, ue_timer_add_eq (execOps initState pre).1 tid pl t0 ut1 hut1]
  have hslot2 : SlotAt (addState (execOps initState pre).1 tid ut1 pl t0) tid
      ut1.store.length =
      some ⟨allocSeq (execOps initState pre).1.lastSeq, t0,
        payloadBytes ut1.session_size pl, true⟩ := by
    rw [add_slotAt (execOps initState pre).1 tid ut1 pl t0 hut1, if_pos ⟨rfl, rfl⟩]
  have hInv2 : Inv (addState (execOps initState pre).1 tid ut1 pl t0) :=
    add_Inv (execOps initState pre).1 tid ut1 pl t0 (lastClock 0 pre) hInv1 htb1
      hc1 hwrap hut1
  have htb2 : TimeBound (addState (execOps initState pre).1 tid ut1 pl t0) t0 :=
    add_TB (execOps initState pre).1 tid ut1 pl t0 (lastClock 0 pre) htb1 hc1 hut1
  have hls2 : (addState (execOps initState pre).1 tid ut1 pl t0).lastSeq =
      (execOps initState pre).1.lastSeq + 1 := by
    rw [← halloc]
    rfl
  have hb2 : (addState (execOps initState pre).1 tid ut1 pl t0).lastSeq +
      numAddOps post ≤ 2 ^ 32 - 1 := by
    rw [hls2]
    omega
  have hTout2 : ∀ ut', (addState (execOps initState pre).1 tid ut1 pl t0).timers[tid]? =
      some ut' → ut'.timeout = ut1.timeout := by
    intro ut' hut'
    rw [addState_timers_self (execOps initState pre).1 tid ut1 pl t0
      (List.getElem?_eq_some.mp hut1).1] at hut'
    rcases Option.some_injective _ hut' with rfl
    rfl
  rcases live_main ((execOps initState pre).1.lastSeq + 1) tid ut1.store.length t0
    ut1.timeout post (addState (execOps initState pre).1 tid ut1 pl t0) t0
    hInv2 htb2 hpost hb2 (by rw [hls2]) hTout2 hnodel
    ⟨allocSeq (execOps initState pre).1.lastSeq, t0,
      payloadBytes ut1.session_size pl, true⟩ hslot2 halloc rfl rfl with
    ⟨hev0, hticks⟩ | ⟨u', hu1, hu2, hu3⟩
  · exfalso
    rcases htick with ⟨u, huge, humem⟩
    have := hticks u humem
    omega
  · have hprev : expiredTimesFor ((execOps initState pre).1.lastSeq + 1)
        (execOps initState pre).2 = [] := by
      apply execOps_expired_bound pre initState 0 Inv_initState
        (TimeBound_initState 0) hpre hbpre
      omega
    have happ := execOps_append pre initState (UeOp.add tid pl t0 :: post)
    have hmid1 : (execOps (execOps initState pre).1 (UeOp.add tid pl t0 :: post)).1 =
        (execOps (addState (execOps initState pre).1 tid ut1 pl t0) post).1 := by
      have h0 : (execOps (execOps initState pre).1 (UeOp.add tid pl t0 :: post)).1 =
          (execOps (stepOp (execOps initState pre).1 (UeOp.add tid pl t0)).1 post).1 := rfl
      rw [h0, hstep]
    have hmid2 : (execOps (execOps initState pre).1 (UeOp.add tid pl t0 :: post)).2 =
        UeEvent.added tid (allocSeq (execOps initState pre).1.lastSeq) t0 ::
          (execOps (addState (execOps initState pre).1 tid ut1 pl t0) post).2 := by
      have h0 : (execOps (execOps initState pre).1 (UeOp.add tid pl t0 :: post)).2 =
          (stepOp (execOps initState pre).1 (UeOp.add tid pl t0)).2 ++
            (execOps (stepOp (execOps initState pre).1 (UeOp.add tid pl t0)).1 post).2 := rfl
      rw [h0, hstep]
      rfl
    have hfsteq : (execOps initState (pre ++ UeOp.add tid pl t0 :: post)).1 =
        (execOps (addState (execOps initState pre).1 tid ut1 pl t0) post).1 := by
      rw [happ, ← hmid1]
    have hsndeq : (execOps initState (pre ++ UeOp.add tid pl t0 :: post)).2 =
        (execOps initState pre).2 ++
          (UeEvent.added tid (allocSeq (execOps initState pre).1.lastSeq) t0 ::
            (execOps (addState (execOps initState pre).1 tid ut1 pl t0) post).2) := by
      rw [happ, ← hmid2]
    refine ⟨u', hu1, ?_, ?_⟩
    · rw [hsndeq, expiredTimesFor_append, hprev]
      have hcons : expiredTimesFor ((execOps initState pre).1.lastSeq + 1)
          (UeEvent.added tid (allocSeq (execOps initState pre).1.lastSeq) t0 ::
            (execOps (addState (execOps initState pre).1 tid ut1 pl t0) post).2) =
          expiredTimesFor ((execOps initState pre).1.lastSeq + 1)
            (execOps (addState (execOps initState pre).1 tid ut1 pl t0) post).2 := by
        simp [expiredTimesFor, List.filterMap_cons]
      rw [hcons, hu2]
      rfl
    · rw [hfsteq]
      exact ue_timer_get_of_no_index _ _ hu3

/-- C4 witness: a concrete trace — create a timer with timeout 5, add at
time 2, sweep at time 10 — fires the session exactly once and `get` then
fails. -/
theorem ue_timer_expiry_witness :
    ∃ u', 2 + (⟨5, 1, [], 0, 0⟩ : ue_timer).timeout ≤ u' ∧
      expiredTimesFor ((execOps initState [UeOp.create 5 1]).1.lastSeq + 1)
        (execOps initState
          ([UeOp.create 5 1] ++ UeOp.add 0 none 2 :: [UeOp.tick 0 10])).2 = [u'] ∧
      ue_timer_get
        (execOps initState
          ([UeOp.create 5 1] ++ UeOp.add 0 none 2 :: [UeOp.tick 0 10])).1
        ((execOps initState [UeOp.create 5 1]).1.lastSeq + 1) = none :=
  ue_timer_expiry [UeOp.create 5 1] [UeOp.tick 0 10] 0 2 none ⟨5, 1, [], 0, 0⟩
    (by exact ⟨by norm_num, by norm_num, trivial⟩)
    (by decide) (by decide) (by decide) ⟨10, by decide, by decide⟩

/-! ### Claim C7: event-loop dispatch order -/

/-- Observable callback invocations during one packet dispatch. -/
inductive LoopEvent where
  | loopCb
  | handler (name : Nat)
deriving Repr, DecidableEq

/-- Modelled from the spec: the per-packet dispatch of `ue_run`. The header
(`src/udp_ev.h`, `ue_run`) documents that the optional loop callback, when
registered, is invoked each time a packet is successfully received, before
the UDP packet-handling callback. -/
def dispatchPacket (hasLoopCb : Bool) (name : Nat) : List LoopEvent :=
  if hasLoopCb then [LoopEvent.loopCb, LoopEvent.handler name]
  else [LoopEvent.handler name]

/-- C7 counterexample: with a loop callback registered, the dispatch order
is not handler-first — the claim as stated fails at this concrete input. -/
theorem ue_run_order_counterexample :
    ¬ (dispatchPacket true 0 = [LoopEvent.handler 0, LoopEvent.loopCb]) := by
  decide

/-- C7 (amended). On every dispatched packet, the loop callback, when
registered, is invoked first and the registered packet handler after it;
without a loop callback only the handler runs. -/
theorem ue_run_loop_then_handler (name : Nat) :
    dispatchPacket true name = [LoopEvent.loopCb, LoopEvent.handler name] ∧
    dispatchPacket false name = [LoopEvent.handler name] :=
  ⟨rfl, rfl⟩

/-! ### Claim C8: client receive result encoding -/

/-- Outcome of the underlying wait/receive inside `ue_recv_by_context`. -/
inductive RecvOutcome where
  | success (nbytes : Nat)
  | timeout
  | ioError
deriving Repr, DecidableEq

/-- Modelled from the spec: the return encoding of `ue_recv_by_context`
per the header — negative on I/O failure, zero on timeout, the positive
received byte count on success. -/
def ue_recv_by_context : RecvOutcome → Int
  | .success n => Int.ofNat n
  | .timeout => 0
  | .ioError => -1

/-- C8. A timed-out client receive returns exactly zero; an underlying I/O
failure returns a negative value; a successful receive of a (non-empty)
datagram returns a positive value; a negative result never encodes a
timeout. -/
theorem ue_recv_encoding (n : Nat) (hn : 0 < n) :
    ue_recv_by_context RecvOutcome.timeout = 0 ∧
    ue_recv_by_context RecvOutcome.ioError < 0 ∧
    0 < ue_recv_by_context (RecvOutcome.success n) ∧
    ∀ o : RecvOutcome, ue_recv_by_context o < 0 → o = RecvOutcome.ioError := by
  refine ⟨rfl, by norm_num [ue_recv_by_context], ?_, ?_⟩
  · simp only [ue_recv_by_context]
    exact Int.ofNat_pos.mpr hn
  intro o ho
  cases o with
  | success m =>
    exfalso
    have : (0 : Int) ≤ Int.ofNat m := Int.ofNat_nonneg m
    simp only [ue_recv_by_context] at ho
    omega
  | timeout =>
    exfalso
    simp [ue_recv_by_context] at ho
  | ioError => rfl

/-- C8 witness: the encoding theorem at a concrete 3-byte receive. -/
theorem ue_recv_encoding_witness :
    (0 : Nat) < 3 ∧
    (ue_recv_by_context RecvOutcome.timeout = 0 ∧
     ue_recv_by_context RecvOutcome.ioError < 0 ∧
     0 < ue_recv_by_context (RecvOutcome.success 3) ∧
     ∀ o : RecvOutcome, ue_recv_by_context o < 0 → o = RecvOutcome.ioError) :=
  ⟨by decide, ue_recv_encoding 3 (by decide)⟩

/-! ### Claim C9: server bind failure conditions -/

/-- Modelled from the spec: `ue_create` — binds a server socket under a
user-chosen integer name. `regs` is the list of names already registered,
`bindOk` abstracts whether the OS-level bind of the requested address
succeeds. Fails (negative) on a zero port, a duplicate name, or a failed
bind; on success the name is registered. -/
def ue_create (regs : List Nat) (name port : Nat) (bindOk : Bool) :
    Int × List Nat :=
  if port = 0 then (-1, regs)
  else if name ∈ regs then (-1, regs)
  else if bindOk = false then (-1, regs)
  else (0, regs ++ [name])

/-- C9. `ue_create` fails whenever the name is already registered, the
address cannot be bound, or the port is zero; a successful bind implies the
port was nonzero. -/
theorem ue_create_failure (regs : List Nat) (name port : Nat) (bindOk : Bool) :
    ((port = 0 ∨ name ∈ regs ∨ bindOk = false) →
      (ue_create regs name port bindOk).1 < 0) ∧
    (0 ≤ (ue_create regs name port bindOk).1 → port ≠ 0) := by
  constructor
  · intro h
    unfold ue_create
    split_ifs with h1 h2 h3
    · norm_num
    · norm_num
    · norm_num
    · exfalso
      rcases h with h | h | h
      · exact h1 h
      · exact h2 h
      · exact h3 h
  · intro h hp
    unfold ue_create at h
    rw [if_pos hp] at h
    norm_num at h

/-- C9 witness: the theorem applied at concrete failing and succeeding
inputs — zero port, duplicate name, failed bind, and a successful bind. -/
theorem ue_create_failure_witness :
    (ue_create [] 1 0 true).1 < 0 ∧ (ue_create [7] 7 5 true).1 < 0 ∧
    (ue_create [] 1 5 false).1 < 0 ∧ (5 : Nat) ≠ 0 :=
  ⟨(ue_create_failure [] 1 0 true).1 (Or.inl rfl),
   (ue_create_failure [7] 7 5 true).1 (Or.inr (Or.inl (by decide))),
   (ue_create_failure [] 1 5 false).1 (Or.inr (Or.inr rfl)),
   (ue_create_failure [] 1 5 true).2 (by decide)⟩

/-! ### Claim C10: packet length bound -/

/-- The fixed receive buffer size of `src/udp_ev.h`: UINT16_MAX bytes. -/
def UE_BUFFER_SIZE : Nat := 65535

/-- The socket context `struct ue_context` of `src/udp_ev.h`. -/
structure ue_context where
  name : Nat
  sockfd : Nat
  create_time : Nat
  client_addr : Nat × Nat
  pkg : List Nat
  pkg_len : Nat
deriving Repr, DecidableEq

/-- Modelled from the spec: the Event Loop reads each datagram into a fixed
buffer of `UE_BUFFER_SIZE` bytes and builds the transient per-packet
context from the bytes actually received. -/
def mkPacketContext (name sockfd now : Nat) (addr : Nat × Nat)
    (datagram : List Nat) : ue_context :=
  { name := name, sockfd := sockfd, create_time := now, client_addr := addr,
    pkg := datagram.take UE_BUFFER_SIZE,
    pkg_len := min datagram.length UE_BUFFER_SIZE }

/-- C10. Every packet context handed to a handler has `pkg_len` at most
`UE_BUFFER_SIZE` (65535), and `pkg_len` matches the delivered bytes. -/
theorem ue_context_pkg_len_le (name sockfd now : Nat) (addr : Nat × Nat)
    (datagram : List Nat) :
    (mkPacketContext name sockfd now addr datagram).pkg_len ≤ UE_BUFFER_SIZE ∧
    (mkPacketContext name sockfd now addr datagram).pkg_len =
      (mkPacketContext name sockfd now addr datagram).pkg.length := by
  constructor
  · exact min_le_right _ _
  · simp [mkPacketContext, List.length_take, Nat.min_comm]
